import Mathlib

/-!
# ADMM decoder: projection onto the parity polytope

A shallow embedding of `FastProjection` and `ProjPolytope` from
`src/ProjPolytope.cpp`, followed by theorems about them.

Conventions of the embedding.

* `double` is replaced by `ℚ` with exact arithmetic; `int` by `Int`.
  The section on double precision repeats the arithmetic stages with each
  `double` operation rounded to binary64.
* A C++ array is a `List`; every indexed access whose index is computed
  goes through `rd` / `wr`, which report `Fault.outOfBounds` when the index
  is outside the array.  Loops that walk a whole array, `for (i = 0; i <
  length; i++) ... a[i] ...`, are written as traversals of the list.  Where
  only the `value` field of an array of nodes is read, the stage takes the
  list of values (`z[i]` for `zSort[i].value`, `c[i]` for `zClip[i].value`).
* `results` is allocated uninitialised by `new double[length]`: a slot is
  `none` until it is written, and `ProjPolytope`, which copies every slot
  to `output`, reports `Fault.uninitialized` for a slot never written.
* The final division has an `int` divisor.  A zero divisor has no rational
  quotient; the embedding reports `Fault.divByZero` there (IEEE arithmetic
  would produce an infinity or a NaN).
* `std::sort` leaves the order of equal values unspecified.  The routine is
  therefore parameterised by the sorting function (`FastProjectionWith`);
  `SortContract` is what `std::sort` with `sort_compare_de` guarantees, and
  `FastProjection` instantiates it with an insertion sort.
-/

namespace ADMM

/-! ## Data model -/

/-- A `struct NODE` of the source: an index and a value. -/
structure NODE where
  index : Int
  value : ℚ
deriving DecidableEq

/-- The ways an execution can leave defined behaviour. -/
inductive Fault where
  | outOfBounds
  | divByZero
  | uninitialized
deriving DecidableEq

deriving instance DecidableEq for Except

/-- Read `a[i]`. -/
def rd {α : Type} (a : List α) (i : Int) : Except Fault α :=
  if i < 0 then Except.error Fault.outOfBounds
  else match a[i.toNat]? with
    | some x => Except.ok x
    | none => Except.error Fault.outOfBounds

/-- Write `a[i] = x`. -/
def wr {α : Type} (a : List α) (i : Int) (x : α) : Except Fault (List α) :=
  if 0 ≤ i ∧ i < (a.length : Int) then Except.ok (a.set i.toNat x)
  else Except.error Fault.outOfBounds

/-! ## Sorting (lines 50-56, 90) -/

/-- The comparer `sort_compare_de`: `a.value > b.value`. -/
def sort_compare_de (a b : NODE) : Bool := decide (a.value > b.value)

/-- What `std::sort(first, last, sort_compare_de)` guarantees of its result: it
is a rearrangement of the input, and no later element compares before an
earlier one. -/
def SortContract (sort : List NODE → List NODE) : Prop :=
  ∀ v, (sort v).Perm v ∧ (sort v).Pairwise (fun a b => sort_compare_de b a = false)

/-- Insert one node into a list that is in decreasing order. -/
def insertDesc (a : NODE) : List NODE → List NODE
  | [] => [a]
  | b :: l => if sort_compare_de a b then a :: b :: l else b :: insertDesc a l

/-- An executable instance of the sort: insertion sort with `sort_compare_de`. -/
def sortDesc : List NODE → List NODE
  | [] => []
  | a :: l => insertDesc a (sortDesc l)

/-! ## Stages of `FastProjection` -/

/-- The constant `zero_tol_offset = 1e-10` (line 61). -/
def zero_tol_offset : ℚ := 1 / 10 ^ 10

/-- The cube clip `min(max(x, 0.0), 1.0)` (lines 98, 270, 274). -/
def clipUnit (x : ℚ) : ℚ := min (max x 0) 1

/-- The flag `AllZero` after the loop of lines 64-70. -/
def AllZero (v : List NODE) : Bool := v.all (fun x => !decide (x.value > 0))

/-- The flag `AllOne` after the loop of lines 64-70. -/
def AllOne (v : List NODE) : Bool := v.all (fun x => !decide (x.value ≤ 1))

/-- The array `zClip` (lines 95-101). -/
def zClipOf (zSort : List NODE) : List NODE :=
  zSort.map (fun x => ⟨x.index, clipUnit x.value⟩)

/-- The sum `constituent` (lines 94-101). -/
def constituentOf (zClip : List NODE) : ℚ := (zClip.map NODE.value).sum

/-- The parity target: `r = (int)floor(constituent); if (r & 1) r--;`
(lines 102-104). -/
def parityTarget (constituent : ℚ) : Int :=
  let r := ⌊constituent⌋
  if r % 2 = 1 then r - 1 else r

/-- The loop `for (i = ...; i < hi; i++) sum_Clip += c[i]` of lines 109-110,
from position `i` on; `c[i]` is `zClip[i].value`. The first argument counts
the remaining iterations. -/
def addLoop (c : List ℚ) : Nat → Int → ℚ → Except Fault ℚ
  | 0, _, acc => pure acc
  | fuel + 1, i, acc => do
    let x ← rd c i
    addLoop c fuel (i + 1) (acc + x)

/-- The loop `for (i = ...; i < length; i++) sum_Clip -= c[i]` of lines
111-112, from position `i` on. The first argument counts the remaining
iterations. -/
def subLoop (c : List ℚ) : Nat → Int → ℚ → Except Fault ℚ
  | 0, _, acc => pure acc
  | fuel + 1, i, acc => do
    let x ← rd c i
    subLoop c fuel (i + 1) (acc - x)

/-- The signed sum `sum_Clip` (lines 108-112): `c[i]` is added for
`0 ≤ i < r+1` and subtracted for `r+1 ≤ i < length`. -/
def sumClip (c : List ℚ) (r : Int) : Except Fault ℚ := do
  let s ← addLoop c (r + 1).toNat 0 0
  subLoop c ((c.length : Int) - (r + 1)).toNat (r + 1) s

/-- The bound `beta_max` (lines 124-128); `z[i]` is `zSort[i].value`. -/
def betaMax (z : List ℚ) (r : Int) : Except Fault ℚ :=
  if r + 2 ≤ (z.length : Int) then do
    let a ← rd z r
    let b ← rd z (r + 1)
    pure ((a - b) / 2)
  else rd z r

/-- The inner loop of lines 140-145: the remaining entries all come from the
lower half. The first argument counts `length - count_idx`. -/
def mergeRight (z : List ℚ) : Nat → Int → Except Fault (List NODE)
  | 0, _ => pure []
  | fuel + 1, right_idx => do
    let x ← rd z right_idx
    let rest ← mergeRight z fuel (right_idx + 1)
    pure (⟨right_idx, -x⟩ :: rest)

/-- The inner loop of lines 150-155: the remaining entries all come from the
upper half. The first argument counts `length - count_idx`. -/
def mergeLeft (z : List ℚ) : Nat → Int → Except Fault (List NODE)
  | 0, _ => pure []
  | fuel + 1, left_idx => do
    let x ← rd z left_idx
    let rest ← mergeLeft z fuel (left_idx - 1)
    pure (⟨left_idx, x - 1⟩ :: rest)

/-- The merge loop of lines 135-171, returning the entries written to
`zBetaRep[count_idx], zBetaRep[count_idx+1], ...`. The first argument counts
`length - count_idx`. -/
def mergeLoop (z : List ℚ) : Nat → Int → Int → Except Fault (List NODE)
  | 0, _, _ => pure []
  | fuel + 1, left_idx, right_idx =>
    if left_idx < 0 then mergeRight z (fuel + 1) right_idx
    else if right_idx ≥ (z.length : Int) then mergeLeft z (fuel + 1) left_idx
    else do
      let a ← rd z left_idx
      let b ← rd z right_idx
      let temp_a := a - 1
      let temp_b := -b
      if temp_a > temp_b ∨ left_idx < 0 then do
        let rest ← mergeLoop z fuel left_idx (right_idx + 1)
        pure (⟨right_idx, temp_b⟩ :: rest)
      else do
        let rest ← mergeLoop z fuel (left_idx - 1) right_idx
        pure (⟨left_idx, temp_a⟩ :: rest)

/-- The array `zBetaRep` after the merge (lines 130-171). -/
def zBetaRepOf (z : List ℚ) (r : Int) : Except Fault (List NODE) :=
  mergeLoop z z.length r (r + 1)

/-- The counter `clip_idx` after lines 174-181. -/
def clipIdx0 (z : List ℚ) : Int := (z.countP (fun x => decide (x > 1)) : Int) - 1

/-- The counter `zero_idx` after lines 174-180. -/
def zeroIdx0 (z : List ℚ) : Int := (z.countP (fun x => decide (x ≥ 0 - zero_tol_offset)) : Int)

/-- The index `idx_start` after lines 184-194 (`first_positive` stays true). -/
def idxStart (zBetaRep : List NODE) : Int :=
  (zBetaRep.countP (fun b => decide (b.value < 0 + zero_tol_offset)) : Int)

/-- The index `idx_end` after lines 184-195 (`below_beta_max` stays true). -/
def idxEnd (zBetaRep : List NODE) (beta_max : ℚ) : Int :=
  (zBetaRep.countP (fun b => decide (b.value < beta_max)) : Int) - 1

/-- One pass of the loop body of lines 197-203, at position `i` holding `x`. -/
def activeStep (clip_idx zero_idx r : Int) (acc : ℚ) (i : Int) (x : ℚ) : ℚ :=
  let acc1 := if i > clip_idx ∧ i ≤ r then acc + x else acc
  if i > r ∧ i < zero_idx then acc1 - x else acc1

/-- The loop of lines 197-203 from position `i` on. -/
def activeLoop (clip_idx zero_idx r : Int) : Int → List ℚ → ℚ → ℚ
  | _, [], acc => acc
  | i, x :: rest, acc =>
    activeLoop clip_idx zero_idx r (i + 1) rest (activeStep clip_idx zero_idx r acc i x)

/-- The initial `active_sum` (lines 196-203). -/
def activeSum0 (z : List ℚ) (clip_idx zero_idx r : Int) : ℚ :=
  activeLoop clip_idx zero_idx r 0 z 0

/-- The variables carried by the sweep loop of lines 215-257. -/
structure Sweep where
  clip_idx : Int
  zero_idx : Int
  active_sum : ℚ
  total_sum : ℚ
  previous_clip_idx : Int
  previous_zero_idx : Int
  previous_active_sum : ℚ
  change_pre : Bool
  beta : ℚ
deriving DecidableEq

/-- The state on entry to the sweep loop (lines 204-214, with `beta = 0` from
line 123). -/
def sweepStart (z : List ℚ) (r : Int) : Sweep :=
  let clip_idx := clipIdx0 z
  let zero_idx := zeroIdx0 z
  let active_sum := activeSum0 z clip_idx zero_idx r
  ⟨clip_idx, zero_idx, active_sum, active_sum + clip_idx + 1,
    clip_idx, zero_idx, active_sum, true, 0⟩

/-- The sweep loop `for (i = idx_start; i <= idx_end; i++)` of lines 215-257.
The first argument bounds the number of remaining iterations; the second is the
loop variable `i`. -/
def sweepLoop (z : List ℚ) (zBetaRep : List NODE) (r idx_end : Int) :
    Nat → Int → Sweep → Except Fault Sweep
  | 0, _, s => pure s
  | fuel + 1, i, s =>
    if i ≤ idx_end then do
      let s1 : Sweep :=
        if s.change_pre then
          ⟨s.clip_idx, s.zero_idx, s.active_sum, s.total_sum,
            s.clip_idx, s.zero_idx, s.active_sum, false, s.beta⟩
        else
          ⟨s.clip_idx, s.zero_idx, s.active_sum, s.total_sum,
            s.previous_clip_idx, s.previous_zero_idx, s.previous_active_sum, false, s.beta⟩
      let b ← rd zBetaRep i
      let beta := b.value
      let x ← rd z b.index
      let s2 : Sweep :=
        if b.index ≤ r then
          ⟨s1.clip_idx - 1, s1.zero_idx, s1.active_sum + x, s1.total_sum,
            s1.previous_clip_idx, s1.previous_zero_idx, s1.previous_active_sum, false, beta⟩
        else
          ⟨s1.clip_idx, s1.zero_idx + 1, s1.active_sum - x, s1.total_sum,
            s1.previous_clip_idx, s1.previous_zero_idx, s1.previous_active_sum, false, beta⟩
      let total : ℚ :=
        ((s2.clip_idx + 1 : Int) : ℚ) + s2.active_sum
          - beta * ((s2.zero_idx - s2.clip_idx - 1 : Int) : ℚ)
      if i < (z.length : Int) - 1 then do
        let nxt ← rd zBetaRep (i + 1)
        if beta ≠ nxt.value then
          let s3 : Sweep :=
            ⟨s2.clip_idx, s2.zero_idx, s2.active_sum, total,
              s2.previous_clip_idx, s2.previous_zero_idx, s2.previous_active_sum, true, beta⟩
          if total < r then pure s3
          else sweepLoop z zBetaRep r idx_end fuel (i + 1) s3
        else sweepLoop z zBetaRep r idx_end fuel (i + 1) s2
      else if i = (z.length : Int) - 1 then
        sweepLoop z zBetaRep r idx_end fuel (i + 1)
          ⟨s2.clip_idx, s2.zero_idx, s2.active_sum, total,
            s2.previous_clip_idx, s2.previous_zero_idx, s2.previous_active_sum, true, beta⟩
      else sweepLoop z zBetaRep r idx_end fuel (i + 1) s2
    else pure s

/-- The snapshot of lines 217-224: when `change_pre` is set the current counters
are saved as the previous ones, and `change_pre` is cleared. -/
def savePrevious (s : Sweep) : Sweep :=
  if s.change_pre then
    ⟨s.clip_idx, s.zero_idx, s.active_sum, s.total_sum,
      s.clip_idx, s.zero_idx, s.active_sum, false, s.beta⟩
  else
    ⟨s.clip_idx, s.zero_idx, s.active_sum, s.total_sum,
      s.previous_clip_idx, s.previous_zero_idx, s.previous_active_sum, false, s.beta⟩

/-- The update of lines 226-236 for the breakpoint `b`, where `x` is
`zSort[b.index].value`. -/
def applyBreakpoint (r : Int) (b : NODE) (x : ℚ) (s : Sweep) : Sweep :=
  if b.index ≤ r then
    ⟨s.clip_idx - 1, s.zero_idx, s.active_sum + x, s.total_sum,
      s.previous_clip_idx, s.previous_zero_idx, s.previous_active_sum, false, b.value⟩
  else
    ⟨s.clip_idx, s.zero_idx + 1, s.active_sum - x, s.total_sum,
      s.previous_clip_idx, s.previous_zero_idx, s.previous_active_sum, false, b.value⟩

/-- The value `(clip_idx+1) + active_sum - beta * (zero_idx - clip_idx - 1)` of
lines 241 and 254. -/
def totalAt (s : Sweep) : ℚ :=
  ((s.clip_idx + 1 : Int) : ℚ) + s.active_sum
    - s.beta * ((s.zero_idx - s.clip_idx - 1 : Int) : ℚ)

/-- The assignment of `total_sum` with `change_pre = true` (lines 241-242 and
254-255). -/
def withTotal (s : Sweep) : Sweep :=
  ⟨s.clip_idx, s.zero_idx, s.active_sum, totalAt s,
    s.previous_clip_idx, s.previous_zero_idx, s.previous_active_sum, true, s.beta⟩

/-- What the sweep keeps true of its counters: the numerators
`clip_idx + 1 + active_sum - r` of the current and of the previous snapshot are
at least `N`, and both widths `zero_idx - clip_idx - 1` are nonnegative. -/
def SweepInv (r : Int) (N : ℚ) (s : Sweep) : Prop :=
  N ≤ ((s.clip_idx + 1 : Int) : ℚ) + s.active_sum - r ∧
  N ≤ ((s.previous_clip_idx + 1 : Int) : ℚ) + s.previous_active_sum - r ∧
  0 ≤ s.zero_idx - s.clip_idx - 1 ∧
  0 ≤ s.previous_zero_idx - s.previous_clip_idx - 1

/-- The state after the sweep loop (lines 123-257), for sorted values `z`. -/
def dualSearch (z : List ℚ) (r : Int) : Except Fault Sweep := do
  let beta_max ← betaMax z r
  let zBetaRep ← zBetaRepOf z r
  let idx_start := idxStart zBetaRep
  let idx_end := idxEnd zBetaRep beta_max
  sweepLoop z zBetaRep r idx_end (idx_end - idx_start + 1).toNat idx_start (sweepStart z r)

/-- The divisor used by the final solve (lines 258-265). -/
def finalDivisor (r : Int) (s : Sweep) : Int :=
  if s.total_sum > r then s.zero_idx - s.clip_idx - 1
  else s.previous_zero_idx - s.previous_clip_idx - 1

/-- The numerator used by the final solve (lines 258-265):
`-(r - clip_idx - 1 - active_sum)`, from the current or the previous snapshot. -/
def finalNumerator (r : Int) (s : Sweep) : ℚ :=
  if s.total_sum > r then -(((r - s.clip_idx - 1 : Int) : ℚ) - s.active_sum)
  else -(((r - s.previous_clip_idx - 1 : Int) : ℚ) - s.previous_active_sum)

/-- The final solve for `beta` (lines 258-265). -/
def solveBeta (r : Int) (s : Sweep) : Except Fault ℚ :=
  if finalDivisor r s = 0 then Except.error Fault.divByZero
  else if s.total_sum > r then
    pure (-(((r - s.clip_idx - 1 : Int) : ℚ) - s.active_sum)
      / ((s.zero_idx - s.clip_idx - 1 : Int) : ℚ))
  else
    pure (-(((r - s.previous_clip_idx - 1 : Int) : ℚ) - s.previous_active_sum)
      / ((s.previous_zero_idx - s.previous_clip_idx - 1 : Int) : ℚ))

/-- The final `beta` for sorted values `z` and parity target `r`
(lines 123-265). -/
def finalBeta (z : List ℚ) (r : Int) : Except Fault ℚ := do
  let s ← dualSearch z r
  solveBeta r s

/-- The value stored for rank position `i` by lines 268-275. -/
def shifted (r : Int) (beta : ℚ) (i : Int) (x : ℚ) : ℚ :=
  if i ≤ r then clipUnit (x - beta) else clipUnit (x + beta)

/-- A loop `for (i = ...; i < length; i++) results[a[i].index] = f(i, a[i].value)`
from position `i` on (lines 117-118 and 266-277). -/
def scatter (f : Int → ℚ → ℚ) : Int → List NODE → List (Option ℚ) →
    Except Fault (List (Option ℚ))
  | _, [], results => pure results
  | i, x :: rest, results => do
    let results1 ← wr results x.index (some (f i x.value))
    scatter f (i + 1) rest results1

/-- The function `FastProjection` (lines 59-280), for a given outcome of the
call to `sort`. -/
def FastProjectionWith (sort : List NODE → List NODE) (v : List NODE) :
    Except Fault (List (Option ℚ)) :=
  let results : List (Option ℚ) := List.replicate v.length none
  if AllZero v then pure (results.map (fun _ => some 0))
  else if AllOne v ∧ v.length % 2 = 0 then pure (results.map (fun _ => some 1))
  else do
    let zSort := sort v
    let zClip := zClipOf zSort
    let r := parityTarget (constituentOf zClip)
    let sum_Clip ← sumClip (zClip.map NODE.value) r
    if sum_Clip ≤ r then scatter (fun _ x => x) 0 zClip results
    else do
      let beta ← finalBeta (zSort.map NODE.value) r
      scatter (shifted r beta) 0 zSort results

/-- The function `FastProjection` with the insertion sort for `sort`. -/
def FastProjection (v : List NODE) : Except Fault (List (Option ℚ)) :=
  FastProjectionWith sortDesc v

/-- The array `v` built by `ProjPolytope` (lines 284-289), from position `i` on. -/
def nodesFrom : Nat → List ℚ → List NODE
  | _, [] => []
  | i, x :: rest => ⟨(i : Int), x⟩ :: nodesFrom (i + 1) rest

/-- The copy loop `output[i] = results[i]` (lines 291-295). -/
def readOut : List (Option ℚ) → Except Fault (List ℚ)
  | [] => pure []
  | none :: _ => Except.error Fault.uninitialized
  | some x :: rest => do
    let out ← readOut rest
    pure (x :: out)

/-- The function `ProjPolytope` (lines 281-297), for a given outcome of the call
to `sort`. -/
def ProjPolytopeWith (sort : List NODE → List NODE) (input : List ℚ) :
    Except Fault (List ℚ) := do
  let results ← FastProjectionWith sort (nodesFrom 0 input)
  readOut results

/-- The function `ProjPolytope` with the insertion sort for `sort`. -/
def ProjPolytope (input : List ℚ) : Except Fault (List ℚ) :=
  ProjPolytopeWith sortDesc input

/-- The values of `zSort` in a run of `ProjPolytope` (after line 90). -/
def sortedValues (sort : List NODE → List NODE) (input : List ℚ) : List ℚ :=
  (sort (nodesFrom 0 input)).map NODE.value

/-- The values of `zClip` in a run of `ProjPolytope` (after line 101). -/
def clippedValues (sort : List NODE → List NODE) (input : List ℚ) : List ℚ :=
  (zClipOf (sort (nodesFrom 0 input))).map NODE.value

/-- The parity target `r` in a run of `ProjPolytope` (after line 104). -/
def targetOf (sort : List NODE → List NODE) (input : List ℚ) : Int :=
  parityTarget (constituentOf (zClipOf (sort (nodesFrom 0 input))))

/-- The signed sum `sum_Clip` in a run of `ProjPolytope` (after line 112). -/
def signedSumOf (sort : List NODE → List NODE) (input : List ℚ) : Except Fault ℚ :=
  sumClip (clippedValues sort input) (targetOf sort input)

/-! ## The dual search in double precision

The stages above use exact arithmetic.  This section repeats the stages that
do arithmetic on `double`s, from the sum `constituent` to the final solve, with
every `double` operation rounded to the nearest binary64 value (IEEE 754, round
to nearest, ties to even, one rounding per operation as in SSE2 code).
Comparisons, negation, the clip, and the conversion of the small `int`s involved
are exact.  Overflow to infinity is not modelled. -/

/-- The loop computing `⌊log₂ n⌋` by repeated halving; the first argument bounds
the number of steps. -/
def log2Loop : Nat → Nat → Nat
  | 0, _ => 0
  | fuel + 1, n => if 2 ≤ n then log2Loop fuel (n / 2) + 1 else 0

/-- The integer `⌊log₂ n⌋` for `n ≥ 1`. -/
def log2Floor (n : Nat) : Nat := log2Loop n n

/-- The power `2 ^ k` for an integer `k`. -/
def pow2 (k : Int) : ℚ :=
  if 0 ≤ k then ((2 ^ k.toNat : Nat) : ℚ) else 1 / ((2 ^ (-k).toNat : Nat) : ℚ)

/-- The binary exponent of `a > 0`: the integer `e` with `2^e ≤ a < 2^(e+1)`. -/
def binExp (a : ℚ) : Int :=
  let e0 : Int := (log2Floor a.num.natAbs : Int) - (log2Floor a.den : Int)
  if a < pow2 e0 then e0 - 1 else e0

/-- Rounding to the nearest integer, a tie going to the even neighbour. -/
def roundHalfEven (m : ℚ) : Int :=
  let f := ⌊m⌋
  let d := m - f
  if d < 1 / 2 then f else if 1 / 2 < d then f + 1 else if f % 2 = 0 then f else f + 1

/-- The binary64 value nearest to `x`, ties to even: `x` is rounded to a multiple
of `2^(e-52)`, where `e` is its binary exponent, or `-1022` in the subnormal
range. -/
def roundD (x : ℚ) : ℚ :=
  if x = 0 then 0
  else
    let q := pow2 (max (binExp |x|) (-1022) - 52)
    (roundHalfEven (x / q) : ℚ) * q

/-- The `double` sum `a + b`. -/
def addD (a b : ℚ) : ℚ := roundD (a + b)

/-- The `double` difference `a - b`. -/
def subD (a b : ℚ) : ℚ := roundD (a - b)

/-- The `double` product `a * b`. -/
def mulD (a b : ℚ) : ℚ := roundD (a * b)

/-- The `double` quotient `a / b`, for `b ≠ 0`. -/
def divD (a b : ℚ) : ℚ := roundD (a / b)

/-- The constant `zero_tol_offset = 1e-10` as a `double` (line 61). -/
def zero_tol_offsetD : ℚ := roundD (1 / 10 ^ 10)

/-- The sum `constituent` accumulated in `double`s (lines 94-101). -/
def constituentD (c : List ℚ) : ℚ := c.foldl addD 0

/-- The loop of lines 109-110 in `double`s. -/
def addLoopD (c : List ℚ) : Nat → Int → ℚ → Except Fault ℚ
  | 0, _, acc => pure acc
  | fuel + 1, i, acc => do
    let x ← rd c i
    addLoopD c fuel (i + 1) (addD acc x)

/-- The loop of lines 111-112 in `double`s. -/
def subLoopD (c : List ℚ) : Nat → Int → ℚ → Except Fault ℚ
  | 0, _, acc => pure acc
  | fuel + 1, i, acc => do
    let x ← rd c i
    subLoopD c fuel (i + 1) (subD acc x)

/-- The signed sum `sum_Clip` in `double`s (lines 108-112). -/
def sumClipD (c : List ℚ) (r : Int) : Except Fault ℚ := do
  let s ← addLoopD c (r + 1).toNat 0 0
  subLoopD c ((c.length : Int) - (r + 1)).toNat (r + 1) s

/-- The bound `beta_max` in `double`s (lines 124-128). -/
def betaMaxD (z : List ℚ) (r : Int) : Except Fault ℚ :=
  if r + 2 ≤ (z.length : Int) then do
    let a ← rd z r
    let b ← rd z (r + 1)
    pure (divD (subD a b) 2)
  else rd z r

/-- The inner loop of lines 150-155 in `double`s. -/
def mergeLeftD (z : List ℚ) : Nat → Int → Except Fault (List NODE)
  | 0, _ => pure []
  | fuel + 1, left_idx => do
    let x ← rd z left_idx
    let rest ← mergeLeftD z fuel (left_idx - 1)
    pure (⟨left_idx, subD x 1⟩ :: rest)

/-- The merge loop of lines 135-171 in `double`s; the inner loop of lines 140-145
only negates and is `mergeRight`. -/
def mergeLoopD (z : List ℚ) : Nat → Int → Int → Except Fault (List NODE)
  | 0, _, _ => pure []
  | fuel + 1, left_idx, right_idx =>
    if left_idx < 0 then mergeRight z (fuel + 1) right_idx
    else if right_idx ≥ (z.length : Int) then mergeLeftD z (fuel + 1) left_idx
    else do
      let a ← rd z left_idx
      let b ← rd z right_idx
      let temp_a := subD a 1
      let temp_b := -b
      if temp_a > temp_b ∨ left_idx < 0 then do
        let rest ← mergeLoopD z fuel left_idx (right_idx + 1)
        pure (⟨right_idx, temp_b⟩ :: rest)
      else do
        let rest ← mergeLoopD z fuel (left_idx - 1) right_idx
        pure (⟨left_idx, temp_a⟩ :: rest)

/-- The array `zBetaRep` in `double`s (lines 130-171). -/
def zBetaRepOfD (z : List ℚ) (r : Int) : Except Fault (List NODE) :=
  mergeLoopD z z.length r (r + 1)

/-- The counter `zero_idx` after lines 174-180, with the `double` constant. -/
def zeroIdx0D (z : List ℚ) : Int :=
  (z.countP (fun x => decide (x ≥ subD 0 zero_tol_offsetD)) : Int)

/-- The index `idx_start` after lines 184-194, with the `double` constant. -/
def idxStartD (zBetaRep : List NODE) : Int :=
  (zBetaRep.countP (fun b => decide (b.value < addD 0 zero_tol_offsetD)) : Int)

/-- One pass of the loop body of lines 197-203 in `double`s. -/
def activeStepD (clip_idx zero_idx r : Int) (acc : ℚ) (i : Int) (x : ℚ) : ℚ :=
  let acc1 := if i > clip_idx ∧ i ≤ r then addD acc x else acc
  if i > r ∧ i < zero_idx then subD acc1 x else acc1

/-- The loop of lines 197-203 in `double`s, from position `i` on. -/
def activeLoopD (clip_idx zero_idx r : Int) : Int → List ℚ → ℚ → ℚ
  | _, [], acc => acc
  | i, x :: rest, acc =>
    activeLoopD clip_idx zero_idx r (i + 1) rest (activeStepD clip_idx zero_idx r acc i x)

/-- The state on entry to the sweep loop in `double`s (lines 196-214):
`total_sum = active_sum + clip_idx + 1` is two rounded additions. -/
def sweepStartD (z : List ℚ) (r : Int) : Sweep :=
  let clip_idx := clipIdx0 z
  let zero_idx := zeroIdx0D z
  let active_sum := activeLoopD clip_idx zero_idx r 0 z 0
  ⟨clip_idx, zero_idx, active_sum, addD (addD active_sum clip_idx) 1,
    clip_idx, zero_idx, active_sum, true, 0⟩

/-- The update of lines 226-236 in `double`s. -/
def applyBreakpointD (r : Int) (b : NODE) (x : ℚ) (s : Sweep) : Sweep :=
  if b.index ≤ r then
    ⟨s.clip_idx - 1, s.zero_idx, addD s.active_sum x, s.total_sum,
      s.previous_clip_idx, s.previous_zero_idx, s.previous_active_sum, false, b.value⟩
  else
    ⟨s.clip_idx, s.zero_idx + 1, subD s.active_sum x, s.total_sum,
      s.previous_clip_idx, s.previous_zero_idx, s.previous_active_sum, false, b.value⟩

/-- The value `(clip_idx+1) + active_sum - beta * (zero_idx - clip_idx - 1)` of
lines 241 and 254 in `double`s: a sum, a product and a difference, each
rounded. -/
def totalAtD (s : Sweep) : ℚ :=
  subD (addD ((s.clip_idx + 1 : Int) : ℚ) s.active_sum)
    (mulD s.beta ((s.zero_idx - s.clip_idx - 1 : Int) : ℚ))

/-- The assignment of `total_sum` with `change_pre = true` in `double`s (lines
241-242 and 254-255). -/
def withTotalD (s : Sweep) : Sweep :=
  ⟨s.clip_idx, s.zero_idx, s.active_sum, totalAtD s,
    s.previous_clip_idx, s.previous_zero_idx, s.previous_active_sum, true, s.beta⟩

/-- The sweep loop of lines 215-257 in `double`s. The first argument bounds the
number of remaining iterations; the second is the loop variable `i`. -/
def sweepLoopD (z : List ℚ) (zBetaRep : List NODE) (r idx_end : Int) :
    Nat → Int → Sweep → Except Fault Sweep
  | 0, _, s => pure s
  | fuel + 1, i, s =>
    if i ≤ idx_end then do
      let b ← rd zBetaRep i
      let x ← rd z b.index
      let s2 := applyBreakpointD r b x (savePrevious s)
      if i < (z.length : Int) - 1 then do
        let nxt ← rd zBetaRep (i + 1)
        if b.value ≠ nxt.value then
          if totalAtD s2 < r then pure (withTotalD s2)
          else sweepLoopD z zBetaRep r idx_end fuel (i + 1) (withTotalD s2)
        else sweepLoopD z zBetaRep r idx_end fuel (i + 1) s2
      else if i = (z.length : Int) - 1 then
        sweepLoopD z zBetaRep r idx_end fuel (i + 1) (withTotalD s2)
      else sweepLoopD z zBetaRep r idx_end fuel (i + 1) s2
    else pure s

/-- The state after the sweep loop in `double`s (lines 123-257). -/
def dualSearchD (z : List ℚ) (r : Int) : Except Fault Sweep := do
  let beta_max ← betaMaxD z r
  let zBetaRep ← zBetaRepOfD z r
  let idx_start := idxStartD zBetaRep
  let idx_end := idxEnd zBetaRep beta_max
  sweepLoopD z zBetaRep r idx_end (idx_end - idx_start + 1).toNat idx_start (sweepStartD z r)

/-- The final solve for `beta` in `double`s (lines 258-265): the `int`
`r - clip_idx - 1` less `active_sum`, negated, divided by the `int` width. -/
def solveBetaD (r : Int) (s : Sweep) : Except Fault ℚ :=
  if finalDivisor r s = 0 then Except.error Fault.divByZero
  else if s.total_sum > r then
    pure (divD (-(subD ((r - s.clip_idx - 1 : Int) : ℚ) s.active_sum))
      ((s.zero_idx - s.clip_idx - 1 : Int) : ℚ))
  else
    pure (divD (-(subD ((r - s.previous_clip_idx - 1 : Int) : ℚ) s.previous_active_sum))
      ((s.previous_zero_idx - s.previous_clip_idx - 1 : Int) : ℚ))

/-- The final `beta` in `double`s (lines 123-265). -/
def finalBetaD (z : List ℚ) (r : Int) : Except Fault ℚ := do
  let s ← dualSearchD z r
  solveBetaD r s

/-- The parity target `r` of a run in `double`s (after line 104). -/
def targetOfD (sort : List NODE → List NODE) (input : List ℚ) : Int :=
  parityTarget (constituentD (clippedValues sort input))

/-- The signed sum `sum_Clip` of a run in `double`s (after line 112). -/
def signedSumOfD (sort : List NODE → List NODE) (input : List ℚ) : Except Fault ℚ :=
  sumClipD (clippedValues sort input) (targetOfD sort input)

/-! ## Vocabulary of the claims -/

/-- The signed sum `Σ_{i ∈ S} x_i - Σ_{i ∉ S} x_i`, the set `S` given by its
membership flags. -/
def signedSum (mask : List Bool) (x : List ℚ) : ℚ :=
  (List.zipWith (fun (b : Bool) (t : ℚ) => if b then t else -t) mask x).sum

/-- All index sets of `{0, ..., n-1}`, as lists of membership flags. -/
def allMasks : Nat → List (List Bool)
  | 0 => [[]]
  | n + 1 => (allMasks n).map (List.cons false) ++ (allMasks n).map (List.cons true)

/-- Membership in the parity polytope by its inequalities: `x ∈ [0,1]^n` and
`Σ_{i ∈ S} x_i - Σ_{i ∉ S} x_i ≤ |S| - 1` for every index set `S` of odd size. -/
def inParityPolytope (x : List ℚ) : Bool :=
  x.all (fun t => decide (0 ≤ t ∧ t ≤ 1)) &&
  (allMasks x.length).all (fun m =>
    if m.count true % 2 = 1 then decide (signedSum m x ≤ (m.count true : ℚ) - 1) else true)

/-- The vector `x ∘ s` for the index map `s` given by the list `p` of its values
`s(0), s(1), ...`: position `i` holds `x[p[i]]`. -/
def permute (p : List Nat) (x : List ℚ) : List ℚ := p.map (fun j => x.getD j 0)

/-- The squared Euclidean distance of two vectors. -/
def distSq (v x : List ℚ) : ℚ := (List.zipWith (fun a b => (a - b) ^ 2) v x).sum

/-! ## Lemmas -/

theorem nodesFrom_length (l : List ℚ) : ∀ i, (nodesFrom i l).length = l.length := by
  induction l with
  | nil => intro i; rfl
  | cons x rest ih => intro i; simp [nodesFrom, ih]

theorem nodesFrom_map_value (l : List ℚ) : ∀ i, (nodesFrom i l).map NODE.value = l := by
  induction l with
  | nil => intro i; rfl
  | cons x rest ih => intro i; simp [nodesFrom, ih]

theorem readOut_map_some (l : List ℚ) : readOut (l.map some) = Except.ok l := by
  induction l with
  | nil => rfl
  | cons x rest ih => simp [readOut, ih]

theorem AllZero_eq (v : List NODE) :
    AllZero v = (v.map NODE.value).all (fun x => !decide (x > 0)) := by
  induction v with
  | nil => rfl
  | cons a l ih =>
    simp only [AllZero, List.all_cons, List.map_cons] at ih ⊢
    rw [ih]

theorem AllOne_eq (v : List NODE) :
    AllOne v = (v.map NODE.value).all (fun x => !decide (x ≤ 1)) := by
  induction v with
  | nil => rfl
  | cons a l ih =>
    simp only [AllOne, List.all_cons, List.map_cons] at ih ⊢
    rw [ih]

theorem readOut_replicate (n : Nat) (c : ℚ) :
    readOut ((List.replicate n (none : Option ℚ)).map (fun _ => some c))
      = Except.ok (List.replicate n c) := by
  have : (List.replicate n (none : Option ℚ)).map (fun _ => some c)
      = (List.replicate n c).map some := by simp
  rw [this, readOut_map_some]

theorem rd_natCast_ok {α : Type} (a : List α) (m : Nat) (x : α)
    (h : rd a (m : Int) = Except.ok x) : ∃ hm : m < a.length, a[m] = x := by
  unfold rd at h
  simp only [Int.toNat_ofNat] at h
  have h0 : ¬ ((m : Int) < 0) := by omega
  rw [if_neg h0] at h
  cases hm : a[m]? with
  | none => rw [hm] at h; cases h
  | some y =>
    rw [hm] at h
    obtain ⟨hlt, hy⟩ := List.getElem?_eq_some_iff.mp hm
    refine ⟨hlt, ?_⟩
    rw [hy]
    injection h

theorem rd_natCast_of_lt {α : Type} (a : List α) (m : Nat) (hm : m < a.length) :
    rd a (m : Int) = Except.ok a[m] := by
  unfold rd
  have h0 : ¬ ((m : Int) < 0) := by omega
  simp only [Int.toNat_ofNat, if_neg h0, List.getElem?_eq_getElem hm]

theorem except_ok_inj {α : Type} {a b : α} (h : (pure a : Except Fault α) = Except.ok b) :
    a = b := by
  have h1 : (Except.ok a : Except Fault α) = Except.ok b := h
  injection h1

theorem bind_ok_eq {α β : Type} (x : α) (f : α → Except Fault β) :
    ((Except.ok x : Except Fault α) >>= f) = f x := rfl

theorem bind_error_eq {α β : Type} (e : Fault) (f : α → Except Fault β) :
    ((Except.error e : Except Fault α) >>= f) = Except.error e := rfl

theorem addLoop_ok (c : List ℚ) : ∀ (k m : Nat) (acc S : ℚ), m ≤ c.length →
    addLoop c k (m : Int) acc = Except.ok S →
      m + k ≤ c.length ∧ S = acc + ((c.drop m).take k).sum := by
  intro k
  induction k with
  | zero =>
    intro m acc S hm h
    simp only [addLoop] at h
    have := except_ok_inj h
    simp [this, hm]
  | succ k ih =>
    intro m acc S hm h
    simp only [addLoop] at h
    cases hr : rd c (m : Int) with
    | error e => rw [hr, bind_error_eq] at h; cases h
    | ok x =>
      rw [hr, bind_ok_eq] at h
      obtain ⟨hlt, hx⟩ := rd_natCast_ok c m x hr
      have h2 : ((m : Int) + 1) = ((m + 1 : Nat) : Int) := by push_cast; ring
      rw [h2] at h
      obtain ⟨hb, hS⟩ := ih (m + 1) (acc + x) S hlt h
      refine ⟨by omega, ?_⟩
      rw [hS, List.drop_eq_getElem_cons hlt, List.take_succ_cons, List.sum_cons, hx]
      ring

theorem subLoop_ok (c : List ℚ) : ∀ (k m : Nat) (acc S : ℚ), m ≤ c.length →
    subLoop c k (m : Int) acc = Except.ok S →
      m + k ≤ c.length ∧ S = acc - ((c.drop m).take k).sum := by
  intro k
  induction k with
  | zero =>
    intro m acc S hm h
    simp only [subLoop] at h
    have := except_ok_inj h
    simp [this, hm]
  | succ k ih =>
    intro m acc S hm h
    simp only [subLoop] at h
    cases hr : rd c (m : Int) with
    | error e => rw [hr, bind_error_eq] at h; cases h
    | ok x =>
      rw [hr, bind_ok_eq] at h
      obtain ⟨hlt, hx⟩ := rd_natCast_ok c m x hr
      have h2 : ((m : Int) + 1) = ((m + 1 : Nat) : Int) := by push_cast; ring
      rw [h2] at h
      obtain ⟨hb, hS⟩ := ih (m + 1) (acc - x) S hlt h
      refine ⟨by omega, ?_⟩
      rw [hS, List.drop_eq_getElem_cons hlt, List.take_succ_cons, List.sum_cons, hx]
      ring

/-- When the signed-sum loops complete, position `r` is inside the array and the
result is the sum of the first `r+1` clipped values minus the sum of the rest. -/
theorem sumClip_ok (c : List ℚ) (r : Int) (S : ℚ) (hr : 0 ≤ r)
    (h : sumClip c r = Except.ok S) :
    r.toNat + 1 ≤ c.length ∧
      S = (c.take (r.toNat + 1)).sum - (c.drop (r.toNat + 1)).sum := by
  unfold sumClip at h
  cases h1 : addLoop c (r + 1).toNat 0 0 with
  | error e => rw [h1, bind_error_eq] at h; cases h
  | ok s =>
    rw [h1, bind_ok_eq] at h
    have e1 : (r + 1).toNat = r.toNat + 1 := by omega
    have h1b : addLoop c (r.toNat + 1) ((0 : Nat) : Int) 0 = Except.ok s := by
      rw [← e1]; exact h1
    obtain ⟨hb, hs⟩ := addLoop_ok c (r.toNat + 1) 0 0 s (Nat.zero_le _) h1b
    have e2 : (r + 1) = ((r.toNat + 1 : Nat) : Int) := by omega
    rw [e2] at h
    obtain ⟨_, hS⟩ := subLoop_ok c _ (r.toNat + 1) s S (by omega) h
    refine ⟨by omega, ?_⟩
    rw [hS, hs]
    have e3 : ((c.length : Int) - ((r.toNat + 1 : Nat) : Int)).toNat
        = (c.drop (r.toNat + 1)).length := by
      rw [List.length_drop]; omega
    rw [e3, List.take_length]
    simp

theorem clipUnit_nonneg (x : ℚ) : 0 ≤ clipUnit x := by
  unfold clipUnit
  exact le_min (le_max_right _ _) zero_le_one

theorem clipUnit_le_one (x : ℚ) : clipUnit x ≤ 1 := by
  unfold clipUnit
  exact min_le_right _ _

theorem clipUnit_mono {x y : ℚ} (h : x ≤ y) : clipUnit x ≤ clipUnit y := by
  unfold clipUnit
  exact min_le_min (max_le_max h le_rfl) le_rfl

theorem sum_clip_nonneg (l : List ℚ) : 0 ≤ (l.map clipUnit).sum := by
  apply List.sum_nonneg
  intro x hx
  obtain ⟨y, _, rfl⟩ := List.mem_map.mp hx
  exact clipUnit_nonneg y

theorem sum_clip_le_length (l : List ℚ) : (l.map clipUnit).sum ≤ l.length := by
  induction l with
  | nil => simp
  | cons x rest ih =>
    simp only [List.map_cons, List.sum_cons, List.length_cons]
    have := clipUnit_le_one x
    push_cast
    linarith

theorem parityTarget_nonneg (c : ℚ) (h : 0 ≤ c) : 0 ≤ parityTarget c := by
  have hf : 0 ≤ ⌊c⌋ := Int.floor_nonneg.mpr h
  simp only [parityTarget]
  split <;> omega

/-- When the signed sum exceeds `r`, the sorted values at positions `r` and
`r+1` are different. -/
theorem boundary_strict (z : List ℚ) (m : Nat) (hm : m + 1 < z.length)
    (hgt : (m : ℚ) < ((z.map clipUnit).take (m + 1)).sum - ((z.map clipUnit).drop (m + 1)).sum) :
    z[m + 1] < z[m] := by
  have hlen : (z.map clipUnit).length = z.length := List.length_map _ _
  have h1 : ((z.map clipUnit).take (m + 1)).sum
      = ((z.map clipUnit).take m).sum + clipUnit z[m] := by
    rw [List.sum_take_succ _ m (by omega)]
    simp
  have h2 : ((z.map clipUnit).take m).sum ≤ m := by
    rw [← List.map_take]
    calc ((z.take m).map clipUnit).sum ≤ ((z.take m).length : ℚ) := sum_clip_le_length _
      _ ≤ m := by
        have : (z.take m).length ≤ m := by simp
        exact_mod_cast this
  have h3 : clipUnit z[m + 1] ≤ ((z.map clipUnit).drop (m + 1)).sum := by
    rw [List.drop_eq_getElem_cons (by omega : m + 1 < (z.map clipUnit).length), List.sum_cons,
      ← List.map_drop]
    have := sum_clip_nonneg (z.drop (m + 1 + 1))
    simp only [List.getElem_map]
    linarith
  by_contra hcon
  have := clipUnit_mono (not_lt.mp hcon)
  linarith

theorem range_map_getD {α : Type} (l : List α) (d : α) :
    (List.range l.length).map (fun k => l.getD k d) = l := by
  apply List.ext_getElem
  · simp
  · intro i h1 h2
    simp [List.getD_eq_getElem?_getD, List.getElem?_eq_getElem h2]

theorem wr_natCast_of_lt {α : Type} (a : List α) (m : Nat) (x : α) (hm : m < a.length) :
    wr a (m : Int) x = Except.ok (a.set m x) := by
  unfold wr
  have : 0 ≤ (m : Int) ∧ (m : Int) < (a.length : Int) := by omega
  simp only [this, and_self, if_true, Int.toNat_ofNat]

/-- The scatter loop over nodes that carry their own position in `a`: slot
`k` ends up holding `g a[k]` when some node has index `k`, and keeps its
content otherwise. -/
theorem scatter_spec (a : List ℚ) (g : ℚ → ℚ) (f : Int → ℚ → ℚ) :
    ∀ (zs : List NODE) (i : Nat) (res : List (Option ℚ)), res.length = a.length →
      (∀ nd ∈ zs, ∃ k : Nat, ∃ hk : k < a.length, nd.index = (k : Int) ∧ nd.value = a[k]) →
      (∀ (j : Nat) (hj : j < zs.length), f ((i + j : Nat) : Int) zs[j].value = g zs[j].value) →
      scatter f (i : Int) zs res = Except.ok ((List.range a.length).map (fun (k : Nat) =>
        if (k : Int) ∈ zs.map NODE.index then some (g (a.getD k 0)) else res.getD k none)) := by
  intro zs
  induction zs with
  | nil =>
    intro i res hlen _ _
    simp only [scatter, List.map_nil, List.not_mem_nil, if_false]
    rw [← hlen, range_map_getD]
    rfl
  | cons nd rest ih =>
    intro i res hlen hval hf
    obtain ⟨k, hk, hidx, hv⟩ := hval nd (List.mem_cons_self _ _)
    have hf0 : f (i : Int) nd.value = g nd.value := by
      have := hf 0 (by simp)
      simpa using this
    simp only [scatter]
    rw [hidx, wr_natCast_of_lt res k _ (by omega), bind_ok_eq]
    have e : ((i : Int) + 1) = ((i + 1 : Nat) : Int) := by push_cast; ring
    rw [e, ih (i + 1) (res.set k (some (f (i : Int) nd.value))) (by simp [hlen])
      (fun nd' hnd' => hval nd' (List.mem_cons_of_mem _ hnd'))
      (fun j hj => by
        have := hf (j + 1) (by simp; omega)
        simp only [List.getElem_cons_succ] at this
        rw [← this]
        congr 2
        omega)]
    congr 1
    apply List.map_congr_left
    intro k' hk'
    simp only [List.map_cons, List.mem_cons, hidx]
    by_cases hkk : k' = k
    · subst hkk
      simp only [true_or, if_true]
      split
      · rfl
      · rw [List.getD_eq_getElem?_getD, List.getElem?_set_self (by omega)]
        rw [hf0, hv]
        simp [List.getD_eq_getElem?_getD, List.getElem?_eq_getElem hk]
    · have hne : (k' : Int) ≠ (k : Int) := by omega
      simp only [hne, false_or]
      split
      · rfl
      · rw [List.getD_eq_getElem?_getD, List.getD_eq_getElem?_getD,
          List.getElem?_set_ne (by omega)]

theorem mem_nodesFrom (l : List ℚ) : ∀ (i : Nat) (nd : NODE),
    nd ∈ nodesFrom i l ↔ ∃ k : Nat, ∃ hk : k < l.length, nd = ⟨((i + k : Nat) : Int), l[k]⟩ := by
  induction l with
  | nil => intro i nd; simp [nodesFrom]
  | cons x rest ih =>
    intro i nd
    simp only [nodesFrom, List.mem_cons, ih, List.length_cons]
    constructor
    · rintro (h | ⟨k, hk, h⟩)
      · exact ⟨0, by omega, by simpa using h⟩
      · refine ⟨k + 1, by omega, ?_⟩
        rw [h]
        simp only [List.getElem_cons_succ, NODE.mk.injEq, and_true]
        push_cast; ring
    · rintro ⟨k, hk, h⟩
      cases k with
      | zero => left; simpa using h
      | succ k =>
        right
        refine ⟨k, by omega, ?_⟩
        rw [h]
        simp only [List.getElem_cons_succ, NODE.mk.injEq, and_true]
        push_cast; ring

theorem all_perm {α : Type} (p : α → Bool) {l₁ l₂ : List α} (h : l₁.Perm l₂) :
    l₁.all p = l₂.all p := by
  rw [Bool.eq_iff_iff]
  simp only [List.all_eq_true]
  exact ⟨fun H x hx => H x (h.mem_iff.mpr hx), fun H x hx => H x (h.mem_iff.mp hx)⟩

/-- Scattering over a rearrangement of the nodes of `a` fills every slot:
slot `k` receives `g a[k]`. -/
theorem scatter_full (a : List ℚ) (g : ℚ → ℚ) (f : Int → ℚ → ℚ) (zs : List NODE)
    (hperm : zs.Perm (nodesFrom 0 a))
    (hf : ∀ (j : Nat) (hj : j < zs.length), f (j : Int) zs[j].value = g zs[j].value) :
    scatter f 0 zs (List.replicate a.length none) = Except.ok ((a.map g).map some) := by
  have h := scatter_spec a g f zs 0 (List.replicate a.length none) (by simp)
    (fun nd hnd => by
      obtain ⟨k, hk, hnd'⟩ := (mem_nodesFrom a 0 nd).mp (hperm.mem_iff.mp hnd)
      exact ⟨k, hk, by rw [hnd']; simp, by rw [hnd']⟩)
    (fun j hj => by simpa using hf j hj)
  have h0 : ((0 : Nat) : Int) = 0 := rfl
  rw [h0] at h
  rw [h]
  congr 1
  apply List.ext_getElem
  · simp
  · intro k h1 h2
    have hk : k < a.length := by simpa using h1
    have hmem : (k : Int) ∈ zs.map NODE.index := by
      have : (⟨((0 + k : Nat) : Int), a[k]⟩ : NODE) ∈ zs :=
        hperm.mem_iff.mpr ((mem_nodesFrom a 0 _).mpr ⟨k, hk, rfl⟩)
      have := List.mem_map_of_mem NODE.index this
      simpa using this
    simp only [List.getElem_map, List.getElem_range, if_pos hmem]
    simp [List.getD_eq_getElem?_getD, List.getElem?_eq_getElem hk]

theorem scatter_zClipOf (f : Int → ℚ → ℚ) : ∀ (zs : List NODE) (i : Int) (res : List (Option ℚ)),
    scatter f i (zClipOf zs) res = scatter (fun j x => f j (clipUnit x)) i zs res := by
  intro zs
  induction zs with
  | nil => intro i res; rfl
  | cons nd rest ih =>
    intro i res
    simp only [zClipOf, List.map_cons, scatter] at ih ⊢
    congr 1
    funext res1
    exact ih (i + 1) res1

theorem zClipOf_map_value (zs : List NODE) :
    (zClipOf zs).map NODE.value = (zs.map NODE.value).map clipUnit := by
  simp [zClipOf, List.map_map, Function.comp_def]

theorem sorted_values (sort : List NODE → List NODE) (hs : SortContract sort) (v : List NODE) :
    ((sort v).map NODE.value).Pairwise (fun x y => y ≤ x) := by
  rw [List.pairwise_map]
  refine (hs v).2.imp ?_
  intro a b h
  simpa [sort_compare_de] using h

theorem sorted_values_unique (z₁ z₂ : List ℚ) (hp : z₁.Perm z₂)
    (h₁ : z₁.Pairwise (fun x y => y ≤ x)) (h₂ : z₂.Pairwise (fun x y => y ≤ x)) : z₁ = z₂ := by
  haveI : IsAntisymm ℚ (fun x y => y ≤ x) := ⟨fun a b hab hba => le_antisymm hba hab⟩
  exact List.eq_of_perm_of_sorted hp h₁ h₂

/-- The run of `ProjPolytope` past the two shortcuts, in terms of the sorted
values. -/
theorem ProjPolytopeWith_main (sort : List NODE → List NODE) (a : List ℚ)
    (hAZ : AllZero (nodesFrom 0 a) = false)
    (hAO : ¬ (AllOne (nodesFrom 0 a) = true ∧ a.length % 2 = 0)) :
    ProjPolytopeWith sort a =
      (sumClip (((sort (nodesFrom 0 a)).map NODE.value).map clipUnit)
          (parityTarget (((sort (nodesFrom 0 a)).map NODE.value).map clipUnit).sum) >>= fun S =>
        if S ≤ (parityTarget (((sort (nodesFrom 0 a)).map NODE.value).map clipUnit).sum : ℚ) then
          scatter (fun _ x => clipUnit x) 0 (sort (nodesFrom 0 a))
            (List.replicate a.length none) >>= readOut
        else
          finalBeta ((sort (nodesFrom 0 a)).map NODE.value)
            (parityTarget (((sort (nodesFrom 0 a)).map NODE.value).map clipUnit).sum) >>= fun beta =>
          scatter (shifted (parityTarget (((sort (nodesFrom 0 a)).map NODE.value).map clipUnit).sum)
            beta) 0 (sort (nodesFrom 0 a)) (List.replicate a.length none) >>= readOut) := by
  unfold ProjPolytopeWith FastProjectionWith
  simp only [hAZ, nodesFrom_length, hAO, if_false, constituentOf, zClipOf_map_value,
    scatter_zClipOf, Bool.false_eq_true]
  cases sumClip (((sort (nodesFrom 0 a)).map NODE.value).map clipUnit)
      (parityTarget (((sort (nodesFrom 0 a)).map NODE.value).map clipUnit).sum) with
  | error e => rfl
  | ok S =>
    simp only [bind_ok_eq]
    split
    · rfl
    · cases finalBeta ((sort (nodesFrom 0 a)).map NODE.value)
          (parityTarget (((sort (nodesFrom 0 a)).map NODE.value).map clipUnit).sum) with
      | error e => rfl
      | ok beta => rfl

theorem sorted_get_le (z : List ℚ) (hz : z.Pairwise (fun x y => y ≤ x)) (i j : Nat)
    (hij : i ≤ j) (hj : j < z.length) : z[j] ≤ z[i] := by
  rcases Nat.eq_or_lt_of_le hij with h | h
  · subst h; exact le_rfl
  · exact (List.pairwise_iff_getElem.mp hz) i j (by omega) hj h

/-- The values stored by the dual-search exit depend on the value only, not on
the rank position: a value on the upper side of the boundary is at least
`z[r]`, a value on the lower side is smaller. -/
theorem shifted_by_value (z : List ℚ) (hz : z.Pairwise (fun x y => y ≤ x)) (r : Int) (hr : 0 ≤ r)
    (S beta : ℚ) (hS : sumClip (z.map clipUnit) r = Except.ok S) (hgt : ¬ S ≤ (r : ℚ))
    (j : Nat) (hj : j < z.length) :
    shifted r beta (j : Int) z[j]
      = (fun x => if z.getD r.toNat 0 ≤ x then clipUnit (x - beta) else clipUnit (x + beta)) z[j] := by
  obtain ⟨hm, hSeq⟩ := sumClip_ok _ r S hr hS
  rw [List.length_map] at hm
  have hmlt : r.toNat < z.length := by omega
  have hget : z.getD r.toNat 0 = z[r.toNat] := by
    simp [List.getD_eq_getElem?_getD, List.getElem?_eq_getElem hmlt]
  simp only [hget, shifted]
  by_cases hjr : (j : Int) ≤ r
  · have : j ≤ r.toNat := by omega
    rw [if_pos hjr, if_pos (sorted_get_le z hz j r.toNat this hmlt)]
  · have hjm : r.toNat + 1 ≤ j := by omega
    have hstrict : z[r.toNat + 1] < z[r.toNat] := by
      apply boundary_strict z r.toNat (by omega)
      rw [← hSeq]
      have : ((r.toNat : Int) : ℚ) = (r : ℚ) := by rw [Int.toNat_of_nonneg hr]
      have h2 : ((r.toNat : Int) : ℚ) = ((r.toNat : Nat) : ℚ) := by push_cast; rfl
      rw [← h2, this]
      exact not_le.mp hgt
    have hle := sorted_get_le z hz (r.toNat + 1) j hjm hj
    rw [if_neg hjr, if_neg (not_le.mpr (lt_of_le_of_lt hle hstrict))]

/-- The result of `ProjPolytope` is a function of the sorted values applied
to each input coordinate: for each list `z` of sorted values there is one
outcome `G`, a fault or a map on values, such that every run whose sort yields
the values `z` returns the input mapped through `G`. -/
theorem outcome_exists (z : List ℚ) :
    ∃ G : Except Fault (ℚ → ℚ), ∀ (sort : List NODE → List NODE) (a : List ℚ),
      SortContract sort → (sort (nodesFrom 0 a)).map NODE.value = z →
      ProjPolytopeWith sort a = (fun g => a.map g) <$> G := by
  have key : ∀ (sort : List NODE → List NODE) (a : List ℚ), SortContract sort →
      (sort (nodesFrom 0 a)).map NODE.value = z →
      AllZero (nodesFrom 0 a) = z.all (fun x => !decide (x > 0)) ∧
      AllOne (nodesFrom 0 a) = z.all (fun x => !decide (x ≤ 1)) ∧
      a.length = z.length := by
    intro sort a hs hv
    have hp := ((hs (nodesFrom 0 a)).1.map NODE.value)
    rw [hv] at hp
    refine ⟨?_, ?_, ?_⟩
    · rw [AllZero_eq]; exact (all_perm _ hp).symm
    · rw [AllOne_eq]; exact (all_perm _ hp).symm
    · have := hp.length_eq
      rw [List.length_map, nodesFrom_length] at this
      exact this.symm
  by_cases hz : z.all (fun x => !decide (x > 0)) = true
  · refine ⟨Except.ok (fun _ => 0), fun sort a hs hv => ?_⟩
    obtain ⟨h1, _, _⟩ := key sort a hs hv
    rw [hz] at h1
    unfold ProjPolytopeWith FastProjectionWith
    simp only [h1, if_true, nodesFrom_length]
    rw [show (pure (List.map (fun _ => some (0 : ℚ)) (List.replicate a.length none))
        : Except Fault (List (Option ℚ))) = Except.ok _ from rfl, bind_ok_eq, readOut_replicate]
    show _ = Except.ok (a.map (fun _ => (0 : ℚ)))
    congr 1
    simp [List.eq_replicate_iff]
  · by_cases ho : z.all (fun x => !decide (x ≤ 1)) = true ∧ z.length % 2 = 0
    · refine ⟨Except.ok (fun _ => 1), fun sort a hs hv => ?_⟩
      obtain ⟨h1, h2, h3⟩ := key sort a hs hv
      rw [Bool.not_eq_true] at hz
      rw [hz] at h1
      rw [ho.1] at h2
      have h4 : a.length % 2 = 0 := by rw [h3]; exact ho.2
      unfold ProjPolytopeWith FastProjectionWith
      simp only [h1, h2, h4, nodesFrom_length, Bool.false_eq_true, if_false, and_self, if_true]
      rw [show (pure (List.map (fun _ => some (1 : ℚ)) (List.replicate a.length none))
          : Except Fault (List (Option ℚ))) = Except.ok _ from rfl, bind_ok_eq, readOut_replicate]
      show _ = Except.ok (a.map (fun _ => (1 : ℚ)))
      congr 1
      simp [List.eq_replicate_iff]
    · have pre : ∀ (sort : List NODE → List NODE) (a : List ℚ), SortContract sort →
          (sort (nodesFrom 0 a)).map NODE.value = z →
          AllZero (nodesFrom 0 a) = false ∧
          ¬ (AllOne (nodesFrom 0 a) = true ∧ a.length % 2 = 0) := by
        intro sort a hs hv
        obtain ⟨h1, h2, h3⟩ := key sort a hs hv
        rw [Bool.not_eq_true] at hz
        exact ⟨by rw [h1, hz], by rw [h2, h3]; exact ho⟩
      cases hS : sumClip (z.map clipUnit) (parityTarget (z.map clipUnit).sum) with
      | error e =>
        refine ⟨Except.error e, fun sort a hs hv => ?_⟩
        obtain ⟨p1, p2⟩ := pre sort a hs hv
        rw [ProjPolytopeWith_main sort a p1 p2, hv, hS]
        rfl
      | ok S =>
        by_cases hle : S ≤ ((parityTarget (z.map clipUnit).sum : Int) : ℚ)
        · refine ⟨Except.ok clipUnit, fun sort a hs hv => ?_⟩
          obtain ⟨p1, p2⟩ := pre sort a hs hv
          rw [ProjPolytopeWith_main sort a p1 p2, hv, hS, bind_ok_eq, if_pos hle,
            scatter_full a clipUnit _ _ (hs _).1 (fun j hj => rfl), bind_ok_eq, readOut_map_some]
          rfl
        · cases hb : finalBeta z (parityTarget (z.map clipUnit).sum) with
          | error e =>
            refine ⟨Except.error e, fun sort a hs hv => ?_⟩
            obtain ⟨p1, p2⟩ := pre sort a hs hv
            rw [ProjPolytopeWith_main sort a p1 p2, hv, hS, bind_ok_eq, if_neg hle, hb]
            rfl
          | ok beta =>
            refine ⟨Except.ok (fun x => if z.getD (parityTarget (z.map clipUnit).sum).toNat 0 ≤ x
              then clipUnit (x - beta) else clipUnit (x + beta)), fun sort a hs hv => ?_⟩
            obtain ⟨p1, p2⟩ := pre sort a hs hv
            have hsorted : z.Pairwise (fun x y => y ≤ x) := by
              rw [← hv]; exact sorted_values sort hs _
            have hr := parityTarget_nonneg _ (sum_clip_nonneg z)
            rw [ProjPolytopeWith_main sort a p1 p2, hv, hS, bind_ok_eq, if_neg hle, hb, bind_ok_eq,
              scatter_full a (fun x => if z.getD (parityTarget (z.map clipUnit).sum).toNat 0 ≤ x
                then clipUnit (x - beta) else clipUnit (x + beta)) _ _ (hs _).1 (fun j hj => by
                have hj' : j < z.length := by rw [← hv]; simpa using hj
                have := shifted_by_value z hsorted _ hr S beta hS hle j hj'
                have hzj : z[j] = (sort (nodesFrom 0 a))[j].value := by
                  simp only [← hv, List.getElem_map]
                rw [hzj] at this
                exact this), bind_ok_eq, readOut_map_some]
            rfl

theorem insertDesc_perm (a : NODE) : ∀ l : List NODE, (insertDesc a l).Perm (a :: l) := by
  intro l
  induction l with
  | nil => exact List.Perm.refl _
  | cons b rest ih =>
    simp only [insertDesc]
    split
    · exact List.Perm.refl _
    · exact (List.Perm.cons b ih).trans (List.Perm.swap a b rest)

theorem sortDesc_perm : ∀ l : List NODE, (sortDesc l).Perm l := by
  intro l
  induction l with
  | nil => exact List.Perm.refl _
  | cons a rest ih =>
    simp only [sortDesc]
    exact (insertDesc_perm a _).trans (List.Perm.cons a ih)

theorem insertDesc_sorted (a : NODE) : ∀ l : List NODE,
    l.Pairwise (fun x y => sort_compare_de y x = false) →
    (insertDesc a l).Pairwise (fun x y => sort_compare_de y x = false) := by
  intro l
  induction l with
  | nil => intro _; simp [insertDesc]
  | cons b rest ih =>
    intro h
    have hb := (List.pairwise_cons.mp h).1
    have hrest := (List.pairwise_cons.mp h).2
    simp only [insertDesc]
    split
    · rename_i hab
      refine List.pairwise_cons.mpr ⟨?_, h⟩
      intro x hx
      simp only [sort_compare_de, decide_eq_true_eq, decide_eq_false_iff_not, not_lt,
        gt_iff_lt] at hab hb ⊢
      rcases List.mem_cons.mp hx with rfl | hx'
      · exact le_of_lt hab
      · exact le_trans (hb x hx') (le_of_lt hab)
    · rename_i hab
      refine List.pairwise_cons.mpr ⟨?_, ih hrest⟩
      intro x hx
      have hx2 := (insertDesc_perm a rest).mem_iff.mp hx
      simp only [sort_compare_de, decide_eq_true_eq, decide_eq_false_iff_not, not_lt,
        gt_iff_lt] at hab hb ⊢
      rcases List.mem_cons.mp hx2 with rfl | hx'
      · exact hab
      · exact hb x hx'

/-- The insertion sort meets the contract of `std::sort`. -/
theorem sortDesc_contract : SortContract sortDesc := by
  intro v
  refine ⟨sortDesc_perm v, ?_⟩
  induction v with
  | nil => simp [sortDesc]
  | cons a rest ih =>
    simp only [sortDesc]
    exact insertDesc_sorted a _ ih

theorem permute_perm (p : List Nat) (x : List ℚ) (hp : p.Perm (List.range x.length)) :
    (permute p x).Perm x := by
  have h := hp.map (fun j => x.getD j 0)
  rw [range_map_getD] at h
  exact h

theorem permute_map (p : List Nat) (x : List ℚ) (g : ℚ → ℚ)
    (hp : p.Perm (List.range x.length)) :
    (permute p x).map g = permute p (x.map g) := by
  simp only [permute, List.map_map]
  apply List.map_congr_left
  intro j hj
  have hj' : j < x.length := List.mem_range.mp (hp.mem_iff.mp hj)
  simp [List.getD_eq_getElem?_getD, List.getElem?_eq_getElem hj']

/-! ## Claims -/

/-- C1 (fails on the code). The projection of `[0, 1 + 2^-35]` is reported as
`[1, 2^-35]`. That point violates the odd-set inequality `x₀ - x₁ ≤ 0`, so it is
outside the parity polytope, and the polytope point `[1/2, 1/2]` is strictly
closer to the input. -/
theorem projection_wrong_near_one :
    ProjPolytope [0, 1 + 1 / 2 ^ 35] = Except.ok [1, 1 / 2 ^ 35] ∧
      inParityPolytope [1, 1 / 2 ^ 35] = false ∧
      inParityPolytope [1 / 2, 1 / 2] = true ∧
      distSq [0, 1 + 1 / 2 ^ 35] [1 / 2, 1 / 2] < distSq [0, 1 + 1 / 2 ^ 35] [1, 1 / 2 ^ 35] := by
  decide!

/-- C2 (fails on the code). The all-ones vector of length 2 lies in the parity
polytope, its parity target is `r = 2 = length`, and the signed-sum loop, which
reads positions `0..r`, leaves the array: no result is returned. -/
theorem allOnes_even_reads_out_of_bounds :
    inParityPolytope [1, 1] = true ∧ targetOf sortDesc [1, 1] = 2 ∧
      signedSumOf sortDesc [1, 1] = Except.error Fault.outOfBounds ∧
      ProjPolytope [1, 1] = Except.error Fault.outOfBounds := by
  decide!

/-- C3 (fails on the code). For the input `[1, 2]` the routine returns no vector:
the parity target is `2 = length` and the read of `zClip[2]` is out of bounds. -/
theorem range_invariant_fails_on_fault :
    targetOf sortDesc [1, 2] = 2 ∧ ProjPolytope [1, 2] = Except.error Fault.outOfBounds := by
  decide!

/-- C4 (fails on the code). For the input `[1 + 2^-35, 3/4, 1/2]` neither
shortcut fires, the parity target is `r = 2`, the feasibility check fails
(`9/4 > 2`), and the output, already in rank order, has signed sum
`15/8 + 2^-35` at level `r`, not `2`. -/
theorem parity_root_missed_near_one :
    AllZero (nodesFrom 0 [1 + 1 / 2 ^ 35, 3 / 4, 1 / 2]) = false ∧
      AllOne (nodesFrom 0 [1 + 1 / 2 ^ 35, 3 / 4, 1 / 2]) = false ∧
      sortedValues sortDesc [1 + 1 / 2 ^ 35, 3 / 4, 1 / 2] = [1 + 1 / 2 ^ 35, 3 / 4, 1 / 2] ∧
      targetOf sortDesc [1 + 1 / 2 ^ 35, 3 / 4, 1 / 2] = 2 ∧
      signedSumOf sortDesc [1 + 1 / 2 ^ 35, 3 / 4, 1 / 2] = Except.ok (9 / 4) ∧
      ProjPolytope [1 + 1 / 2 ^ 35, 3 / 4, 1 / 2]
        = Except.ok [7 / 8 + 1 / 2 ^ 35, 5 / 8, 3 / 8] ∧
      signedSum [true, true, true] [7 / 8 + 1 / 2 ^ 35, 5 / 8, 3 / 8] = 15 / 8 + 1 / 2 ^ 35 := by
  decide!

/-- C5. Permutation invariance: projecting a rearranged input gives the
correspondingly rearranged result, whatever order the sort gives to equal values
on either side. The permutation is given by the list `p` of its values. -/
theorem projection_permutation_invariant (sort sort' : List NODE → List NODE)
    (hs : SortContract sort) (hs' : SortContract sort') (input : List ℚ) (p : List Nat)
    (hp : p.Perm (List.range input.length)) :
    ProjPolytopeWith sort' (permute p input)
      = Except.map (permute p) (ProjPolytopeWith sort input) := by
  obtain ⟨G, hG⟩ := outcome_exists ((sort (nodesFrom 0 input)).map NODE.value)
  have h1 := hG sort input hs rfl
  have hz : (sort' (nodesFrom 0 (permute p input))).map NODE.value
      = (sort (nodesFrom 0 input)).map NODE.value := by
    apply sorted_values_unique _ _ _ (sorted_values sort' hs' _) (sorted_values sort hs _)
    have a1 := (hs' (nodesFrom 0 (permute p input))).1.map NODE.value
    have a2 := (hs (nodesFrom 0 input)).1.map NODE.value
    rw [nodesFrom_map_value] at a1 a2
    exact a1.trans ((permute_perm p input hp).trans a2.symm)
  have h2 := hG sort' (permute p input) hs' hz
  rw [h1, h2]
  cases G with
  | error e => rfl
  | ok g =>
    show Except.ok ((permute p input).map g) = Except.ok (permute p (input.map g))
    rw [permute_map p input g hp]

/-- Witness for C5: a rotation of a three-element input with a repeated value. -/
theorem projection_permutation_invariant_witness :
    SortContract sortDesc ∧ [2, 0, 1].Perm (List.range [(3 : ℚ) / 4, 1 / 4, 3 / 4].length) ∧
      ProjPolytopeWith sortDesc (permute [2, 0, 1] [3 / 4, 1 / 4, 3 / 4])
        = Except.map (permute [2, 0, 1]) (ProjPolytopeWith sortDesc [3 / 4, 1 / 4, 3 / 4]) :=
  ⟨sortDesc_contract, by decide,
    projection_permutation_invariant sortDesc sortDesc sortDesc_contract sortDesc_contract
      [3 / 4, 1 / 4, 3 / 4] [2, 0, 1] (by decide)⟩

/-- C6 (counterexample). For `[0.9, 0.9, 0.9, 0.9]` it is not the case that the
feasibility check fails and the output sums to 2. -/
theorem knownCase_not_as_stated :
    ¬ (targetOf sortDesc [9 / 10, 9 / 10, 9 / 10, 9 / 10] = 2 ∧
      (∃ S, signedSumOf sortDesc [9 / 10, 9 / 10, 9 / 10, 9 / 10] = Except.ok S ∧ (2 : ℚ) < S) ∧
      ∃ x, ProjPolytope [9 / 10, 9 / 10, 9 / 10, 9 / 10] = Except.ok x ∧
        (∀ t ∈ x, 0 ≤ t ∧ t ≤ 1) ∧ x.sum = 2) := by
  rintro ⟨_, ⟨S, hS, hlt⟩, _⟩
  have h : signedSumOf sortDesc [9 / 10, 9 / 10, 9 / 10, 9 / 10] = Except.ok (9 / 5) := by decide!
  rw [h] at hS
  injection hS with hS
  rw [← hS] at hlt
  norm_num at hlt

/-- C6 (amended). For `[0.9, 0.9, 0.9, 0.9]` the parity target is `r = 2`, the
signed sum is `1.8 ≤ 2`, so the feasibility check passes, and the output is the
input itself: every coordinate is in `[0,1]` and the coordinates sum to `3.6`. -/
theorem knownCase_feasible :
    targetOf sortDesc [9 / 10, 9 / 10, 9 / 10, 9 / 10] = 2 ∧
      signedSumOf sortDesc [9 / 10, 9 / 10, 9 / 10, 9 / 10] = Except.ok (9 / 5) ∧
      ProjPolytope [9 / 10, 9 / 10, 9 / 10, 9 / 10]
        = Except.ok [9 / 10, 9 / 10, 9 / 10, 9 / 10] ∧
      (∀ t ∈ [(9 : ℚ) / 10, 9 / 10, 9 / 10, 9 / 10], 0 ≤ t ∧ t ≤ 1) ∧
      [(9 : ℚ) / 10, 9 / 10, 9 / 10, 9 / 10].sum = 18 / 5 := by
  decide!

/-- C7 (fails on the code). For the odd-length input `[1 + 2^-35, 5/4, 3]`, all
values above one, the all-ones shortcut does not fire, and the output is
`[0, 0, 1]`: a binary vector of odd weight, outside the parity polytope. -/
theorem oddLength_aboveOne_leaves_polytope :
    AllOne (nodesFrom 0 [1 + 1 / 2 ^ 35, 5 / 4, 3]) = true ∧
      ProjPolytope [1 + 1 / 2 ^ 35, 5 / 4, 3] = Except.ok [0, 0, 1] ∧
      inParityPolytope [0, 0, 1] = false := by
  decide!

/-- C8. All-nonpositive shortcut: when every value of the input is `≤ 0`, the
result is the all-zero vector of the same length, whatever the sort does. -/
theorem allNonpositive_returns_zeros (sort : List NODE → List NODE) (input : List ℚ)
    (h : ∀ x ∈ input, x ≤ 0) :
    ProjPolytopeWith sort input = Except.ok (List.replicate input.length 0) := by
  have hz : AllZero (nodesFrom 0 input) = true := by
    rw [AllZero_eq, nodesFrom_map_value]
    simp only [List.all_eq_true]
    intro x hx
    have := h x hx
    simp [this]
  unfold ProjPolytopeWith FastProjectionWith
  simp only [hz, if_true, nodesFrom_length]
  exact readOut_replicate _ _


/-- Witness for C8: the input `[-1, -2, -3]` gives `[0, 0, 0]`. -/
theorem allNonpositive_returns_zeros_witness :
    (∀ x ∈ [(-1 : ℚ), -2, -3], x ≤ 0) ∧ ProjPolytope [-1, -2, -3] = Except.ok [0, 0, 0] :=
  ⟨by decide!, allNonpositive_returns_zeros sortDesc [-1, -2, -3] (by decide!)⟩

/-- C9. All-above-one shortcut: when the length is even and at least 2 and every
value of the input is `> 1`, the result is the all-ones vector of the same
length, whatever the sort does. -/
theorem allAboveOne_returns_ones (sort : List NODE → List NODE) (input : List ℚ)
    (hn : 2 ≤ input.length) (heven : input.length % 2 = 0) (h : ∀ x ∈ input, 1 < x) :
    ProjPolytopeWith sort input = Except.ok (List.replicate input.length 1) := by
  have hz : AllZero (nodesFrom 0 input) = false := by
    rw [AllZero_eq, nodesFrom_map_value]
    cases input with
    | nil => simp at hn
    | cons x rest =>
      have hx := h x (List.mem_cons_self x rest)
      have : (0 : ℚ) < x := by linarith
      simp [this]
  have ho : AllOne (nodesFrom 0 input) = true := by
    rw [AllOne_eq, nodesFrom_map_value]
    simp only [List.all_eq_true]
    intro x hx
    have := h x hx
    simp [this]
  unfold ProjPolytopeWith FastProjectionWith
  simp only [hz, ho, nodesFrom_length, heven]
  exact readOut_replicate _ _


/-- Witness for C9: the input `[2, 3, 4, 5]` gives `[1, 1, 1, 1]`. -/
theorem allAboveOne_returns_ones_witness :
    2 ≤ [(2 : ℚ), 3, 4, 5].length ∧ [(2 : ℚ), 3, 4, 5].length % 2 = 0 ∧
      (∀ x ∈ [(2 : ℚ), 3, 4, 5], 1 < x) ∧ ProjPolytope [2, 3, 4, 5] = Except.ok [1, 1, 1, 1] :=
  ⟨by decide, by decide, by decide!,
    allAboveOne_returns_ones sortDesc [2, 3, 4, 5] (by decide) (by decide) (by decide!)⟩

/-- C10 (counterexample). On the input of length 0, `FastProjection` does not
fail. -/
theorem emptyInput_no_error : ¬ ∃ e, FastProjection [] = Except.error e := by
  rintro ⟨e, he⟩
  have h : FastProjection [] = Except.ok [] := by decide!
  rw [h] at he
  cases he

/-- C10 (amended). On the input of length 0 the all-nonpositive shortcut fires
vacuously and the empty vector is returned, by `FastProjection` and by
`ProjPolytope`. -/
theorem emptyInput_returns_empty :
    AllZero [] = true ∧ FastProjection [] = Except.ok [] ∧ ProjPolytope [] = Except.ok [] := by
  decide!

/-! ## Parity target, feasibility return and waterfilling counts -/

theorem clippedValues_eq (sort : List NODE → List NODE) (input : List ℚ) :
    clippedValues sort input = (sortedValues sort input).map clipUnit := by
  simp only [clippedValues, sortedValues, zClipOf_map_value]

theorem floor_sub_one_le_parityTarget (c : ℚ) : ⌊c⌋ - 1 ≤ parityTarget c := by
  simp only [parityTarget]
  split <;> omega

theorem signedSumOf_eq (sort : List NODE → List NODE) (input : List ℚ) :
    signedSumOf sort input = sumClip ((sortedValues sort input).map clipUnit)
      (parityTarget ((sortedValues sort input).map clipUnit).sum) := by
  simp only [signedSumOf, targetOf, constituentOf, clippedValues_eq, ← clippedValues_eq]
  rfl

/-- C13. Feasibility return: when neither shortcut fires and the signed sum is
at most `r`, the result is the cube-clipped input at the original positions. -/
theorem feasible_returns_clipped (sort : List NODE → List NODE) (hs : SortContract sort)
    (input : List ℚ) (hAZ : AllZero (nodesFrom 0 input) = false)
    (hAO : ¬ (AllOne (nodesFrom 0 input) = true ∧ input.length % 2 = 0)) (S : ℚ)
    (hS : signedSumOf sort input = Except.ok S) (hle : S ≤ (targetOf sort input : ℚ)) :
    ProjPolytopeWith sort input = Except.ok (input.map clipUnit) := by
  rw [signedSumOf_eq] at hS
  have ht : targetOf sort input = parityTarget ((sortedValues sort input).map clipUnit).sum := by
    simp only [targetOf, constituentOf, zClipOf_map_value, sortedValues]
  rw [ht] at hle
  simp only [sortedValues] at hS hle
  rw [ProjPolytopeWith_main sort input hAZ hAO, hS, bind_ok_eq, if_pos hle,
    scatter_full input clipUnit _ _ (hs _).1 (fun j hj => rfl), bind_ok_eq, readOut_map_some]

theorem countP_gt_one_le_sum_clip (l : List ℚ) :
    ((l.countP (fun x => decide (x > 1)) : Nat) : ℚ) ≤ (l.map clipUnit).sum := by
  induction l with
  | nil => simp
  | cons x rest ih =>
    simp only [List.countP_cons, List.map_cons, List.sum_cons]
    by_cases hx : x > 1
    · have : clipUnit x = 1 := by
        unfold clipUnit
        rw [max_eq_left (by linarith), min_eq_right (le_of_lt hx)]
      simp only [hx, decide_True, if_true, this]
      push_cast
      linarith
    · have := clipUnit_nonneg x
      simp only [hx, decide_False, Bool.false_eq_true, if_false, add_zero]
      linarith

theorem sum_clip_le_countP_pos (l : List ℚ) :
    (l.map clipUnit).sum ≤ ((l.countP (fun x => decide (x > 0)) : Nat) : ℚ) := by
  induction l with
  | nil => simp
  | cons x rest ih =>
    simp only [List.countP_cons, List.map_cons, List.sum_cons]
    by_cases hx : x > 0
    · have := clipUnit_le_one x
      simp only [hx, decide_True, if_true]
      push_cast
      linarith
    · have : clipUnit x = 0 := by
        unfold clipUnit
        rw [max_eq_right (not_lt.mp hx), min_eq_left zero_le_one]
      simp only [hx, decide_False, Bool.false_eq_true, if_false, add_zero, this]
      linarith

/-- The number of values above one is at most `r + 1`. -/
theorem clipIdx0_le (z : List ℚ) : clipIdx0 z ≤ parityTarget (z.map clipUnit).sum := by
  have h1 := countP_gt_one_le_sum_clip z
  have h2 : ((z.countP (fun x => decide (x > 1)) : Nat) : Int) ≤ ⌊(z.map clipUnit).sum⌋ := by
    apply Int.le_floor.mpr
    exact_mod_cast h1
  have h3 := floor_sub_one_le_parityTarget (z.map clipUnit).sum
  unfold clipIdx0
  omega

/-- When the signed sum exceeds `r`, at least `r + 1` values pass the zero
test. -/
theorem zeroIdx0_ge (z : List ℚ) (r : Int) (hr : 0 ≤ r) (S : ℚ)
    (hS : sumClip (z.map clipUnit) r = Except.ok S) (hgt : (r : ℚ) < S) :
    r + 1 ≤ zeroIdx0 z := by
  obtain ⟨hm, hSeq⟩ := sumClip_ok _ r S hr hS
  by_contra hcon
  have hZ : z.countP (fun x => decide (x ≥ 0 - zero_tol_offset)) ≤ r.toNat := by
    unfold zeroIdx0 at hcon
    omega
  have h1 : ((z.map clipUnit).take (r.toNat + 1)).sum ≤ (r.toNat : ℚ) := by
    rw [← List.map_take]
    calc ((z.take (r.toNat + 1)).map clipUnit).sum
        ≤ (((z.take (r.toNat + 1)).countP (fun x => decide (x > 0)) : Nat) : ℚ) :=
          sum_clip_le_countP_pos _
      _ ≤ ((z.countP (fun x => decide (x > 0)) : Nat) : ℚ) := by
          exact_mod_cast (List.take_sublist _ _).countP_le _
      _ ≤ ((z.countP (fun x => decide (x ≥ 0 - zero_tol_offset)) : Nat) : ℚ) := by
          have : z.countP (fun x => decide (x > 0))
              ≤ z.countP (fun x => decide (x ≥ 0 - zero_tol_offset)) := by
            apply List.countP_mono_left
            intro x _ hx
            simp only [decide_eq_true_eq, zero_tol_offset] at hx ⊢
            have : (0 : ℚ) ≤ 1 / 10 ^ 10 := by norm_num
            linarith
          exact_mod_cast this
      _ ≤ (r.toNat : ℚ) := by exact_mod_cast hZ
  have h2 : 0 ≤ ((z.map clipUnit).drop (r.toNat + 1)).sum := by
    rw [← List.map_drop]
    exact sum_clip_nonneg _
  have h3 : ((r.toNat : Nat) : ℚ) = (r : ℚ) := by
    have : ((r.toNat : Nat) : Int) = r := Int.toNat_of_nonneg hr
    exact_mod_cast this
  rw [h3] at h1
  linarith

theorem countP_ge_of_prefix (l : List ℚ) (p : ℚ → Bool) (k : Nat) (hk : k ≤ l.length)
    (h : ∀ (i : Nat) (hi : i < l.length), i < k → p l[i] = true) : k ≤ l.countP p := by
  have h1 : (l.take k).countP p = (l.take k).length := by
    rw [List.countP_eq_length]
    intro a ha
    obtain ⟨i, hi, rfl⟩ := List.getElem_of_mem ha
    rw [List.getElem_take]
    have hi' : i < k := by
      rw [List.length_take] at hi
      omega
    exact h i (by omega) hi'
  have h2 : (l.take k).countP p ≤ l.countP p := (List.take_sublist _ _).countP_le _
  rw [h1, List.length_take] at h2
  omega

/-- C19. Initial waterfilling counts: when the feasibility check fails, at most
`r + 1` sorted values exceed one (so `clip_idx ≤ r` after the decrement and
every value above one sits at a position `≤ r`), at least `r + 1` values pass
the zero test, and the initial width `zero_idx - clip_idx - 1` is `≥ 0`. -/
theorem waterfilling_counts (sort : List NODE → List NODE) (hs : SortContract sort)
    (input : List ℚ) (S : ℚ) (hS : signedSumOf sort input = Except.ok S)
    (hgt : (targetOf sort input : ℚ) < S) :
    ((sortedValues sort input).countP (fun x => decide (x > 1)) : Int) ≤ targetOf sort input + 1 ∧
      clipIdx0 (sortedValues sort input) ≤ targetOf sort input ∧
      (∀ (j : Nat) (hj : j < (sortedValues sort input).length),
        1 < (sortedValues sort input)[j] → (j : Int) ≤ targetOf sort input) ∧
      targetOf sort input + 1 ≤ zeroIdx0 (sortedValues sort input) ∧
      0 ≤ zeroIdx0 (sortedValues sort input) - clipIdx0 (sortedValues sort input) - 1 := by
  have ht : targetOf sort input = parityTarget ((sortedValues sort input).map clipUnit).sum := by
    simp only [targetOf, constituentOf, zClipOf_map_value, sortedValues]
  rw [signedSumOf_eq] at hS
  rw [ht] at hgt ⊢
  have hr := parityTarget_nonneg _ (sum_clip_nonneg (sortedValues sort input))
  have hc := clipIdx0_le (sortedValues sort input)
  have hz := zeroIdx0_ge (sortedValues sort input) _ hr S hS hgt
  have hsorted : (sortedValues sort input).Pairwise (fun x y => y ≤ x) := sorted_values sort hs _
  refine ⟨?_, hc, ?_, hz, by omega⟩
  · unfold clipIdx0 at hc
    omega
  · intro j hj hj1
    by_contra hcon
    have hk : j + 1 ≤ (sortedValues sort input).countP (fun x => decide (x > 1)) := by
      apply countP_ge_of_prefix _ _ (j + 1) (by omega)
      intro i hi hij
      have := sorted_get_le _ hsorted i j (by omega) hj
      simp only [decide_eq_true_eq, gt_iff_lt]
      linarith
    unfold clipIdx0 at hc
    omega

/-- Witness for C19: the input `[3/4, 1/4]`, with `r = 0` and signed sum `1/2`. -/
theorem waterfilling_counts_witness :
    SortContract sortDesc ∧
      signedSumOf sortDesc [3 / 4, 1 / 4] = Except.ok (1 / 2) ∧
      ((targetOf sortDesc [3 / 4, 1 / 4] : Int) : ℚ) < 1 / 2 ∧
      (((sortedValues sortDesc [3 / 4, 1 / 4]).countP (fun x => decide (x > 1)) : Int)
          ≤ targetOf sortDesc [3 / 4, 1 / 4] + 1 ∧
        clipIdx0 (sortedValues sortDesc [3 / 4, 1 / 4]) ≤ targetOf sortDesc [3 / 4, 1 / 4] ∧
        (∀ (j : Nat) (hj : j < (sortedValues sortDesc [3 / 4, 1 / 4]).length),
          1 < (sortedValues sortDesc [3 / 4, 1 / 4])[j] →
            (j : Int) ≤ targetOf sortDesc [3 / 4, 1 / 4]) ∧
        targetOf sortDesc [3 / 4, 1 / 4] + 1 ≤ zeroIdx0 (sortedValues sortDesc [3 / 4, 1 / 4]) ∧
        0 ≤ zeroIdx0 (sortedValues sortDesc [3 / 4, 1 / 4])
          - clipIdx0 (sortedValues sortDesc [3 / 4, 1 / 4]) - 1) :=
  ⟨sortDesc_contract, by decide!, by decide!,
    waterfilling_counts sortDesc sortDesc_contract [3 / 4, 1 / 4] (1 / 2) (by decide!) (by decide!)⟩

/-- Witness for C13: the input `[0.9, 0.9, 0.9, 0.9]`, with `r = 2` and signed
sum `9/5`. -/
theorem feasible_returns_clipped_witness :
    SortContract sortDesc ∧
      AllZero (nodesFrom 0 [9 / 10, 9 / 10, 9 / 10, 9 / 10]) = false ∧
      ¬ (AllOne (nodesFrom 0 [9 / 10, 9 / 10, 9 / 10, 9 / 10]) = true ∧
        ([9 / 10, 9 / 10, 9 / 10, 9 / 10] : List ℚ).length % 2 = 0) ∧
      signedSumOf sortDesc [9 / 10, 9 / 10, 9 / 10, 9 / 10] = Except.ok (9 / 5) ∧
      (9 / 5 : ℚ) ≤ (targetOf sortDesc [9 / 10, 9 / 10, 9 / 10, 9 / 10] : ℚ) ∧
      ProjPolytopeWith sortDesc [9 / 10, 9 / 10, 9 / 10, 9 / 10]
        = Except.ok (([9 / 10, 9 / 10, 9 / 10, 9 / 10] : List ℚ).map clipUnit) :=
  ⟨sortDesc_contract, by decide!, by decide!, by decide!, by decide!,
    feasible_returns_clipped sortDesc sortDesc_contract [9 / 10, 9 / 10, 9 / 10, 9 / 10]
      (by decide!) (by decide!) (9 / 5) (by decide!) (by decide!)⟩

/-- C15 (amended). Merge tie rule: when both halves still have a candidate and
the upper-half candidate `z[left_idx] - 1` equals the lower-half candidate
`-z[right_idx]`, the upper-half candidate (index `left_idx`) is emitted first
and the merge goes on with `left_idx - 1`. -/
theorem merge_tie_upper_first (z : List ℚ) (fuel : Nat) (left_idx right_idx : Int) (a b : ℚ)
    (hl : 0 ≤ left_idx) (hq : right_idx < (z.length : Int))
    (ha : rd z left_idx = Except.ok a) (hb : rd z right_idx = Except.ok b)
    (htie : a - 1 = -b) :
    mergeLoop z (fuel + 1) left_idx right_idx
      = (mergeLoop z fuel (left_idx - 1) right_idx >>= fun rest =>
          pure (⟨left_idx, a - 1⟩ :: rest)) := by
  have h1 : ¬ left_idx < 0 := by omega
  have h2 : ¬ right_idx ≥ (z.length : Int) := by omega
  have h3 : ¬ (a - 1 > -b ∨ left_idx < 0) := by
    rw [htie]
    simp [h1]
  simp only [mergeLoop, if_neg h1, if_neg h2, ha, hb, bind_ok_eq, if_neg h3]

/-- Witness for C15 (amended): sorted values `[3/4, 1/4]`, `left_idx = 0`,
`right_idx = 1`. -/
theorem merge_tie_upper_first_witness :
    (0 : Int) ≤ 0 ∧ (1 : Int) < (([3 / 4, 1 / 4] : List ℚ).length : Int) ∧
      rd [3 / 4, 1 / 4] 0 = Except.ok (3 / 4 : ℚ) ∧ rd [3 / 4, 1 / 4] 1 = Except.ok (1 / 4 : ℚ) ∧
      (3 / 4 : ℚ) - 1 = -(1 / 4) ∧
      mergeLoop [3 / 4, 1 / 4] (1 + 1) 0 1
        = (mergeLoop [3 / 4, 1 / 4] 1 (0 - 1) 1 >>= fun rest =>
            pure (⟨0, 3 / 4 - 1⟩ :: rest)) :=
  ⟨by decide, by decide, by decide!, by decide!, by decide!,
    merge_tie_upper_first [3 / 4, 1 / 4] 1 0 1 (3 / 4) (1 / 4) (by decide) (by decide)
      (by decide!) (by decide!) (by decide!)⟩

/-- C15 (counterexample). For the input `[3/4, 1/4]` (`r = 0`, feasibility check
fails) the two candidates are both `-1/4`, and the first entry of `zBetaRep` has
index `0`, the upper half: the lower-half candidate is not emitted first. -/
theorem merge_tie_lower_not_first :
    sortedValues sortDesc [3 / 4, 1 / 4] = [3 / 4, 1 / 4] ∧
      targetOf sortDesc [3 / 4, 1 / 4] = 0 ∧
      signedSumOf sortDesc [3 / 4, 1 / 4] = Except.ok (1 / 2) ∧
      (3 / 4 : ℚ) - 1 = -(1 / 4) ∧
      zBetaRepOf [3 / 4, 1 / 4] 0 = Except.ok [⟨0, -(1 / 4)⟩, ⟨1, -(1 / 4)⟩] ∧
      ¬ ∃ rest, zBetaRepOf [3 / 4, 1 / 4] 0 = Except.ok (⟨1, -(1 / 4)⟩ :: rest) := by
  refine ⟨by decide!, by decide!, by decide!, by decide!, by decide!, ?_⟩
  rintro ⟨rest, h⟩
  have h0 : zBetaRepOf [3 / 4, 1 / 4] 0 = Except.ok [⟨0, -(1 / 4)⟩, ⟨1, -(1 / 4)⟩] := by decide!
  rw [h0] at h
  injection h with h
  injection h with h1 _
  injection h1 with h2 _
  exact absurd h2 (by decide)

/-- C11 (fails on the code). For the input `[1 + 2^-35]` neither shortcut fires
(the length is odd), `r = 0`, the feasibility check fails (`1 > 0`), and after
the sweep `total_sum > r` while `zero_idx - clip_idx - 1 = 0`: the final solve
divides by zero. -/
theorem final_divisor_zero :
    AllZero (nodesFrom 0 [1 + 1 / 2 ^ 35]) = false ∧
      ([1 + 1 / 2 ^ 35] : List ℚ).length % 2 = 1 ∧
      targetOf sortDesc [1 + 1 / 2 ^ 35] = 0 ∧
      signedSumOf sortDesc [1 + 1 / 2 ^ 35] = Except.ok 1 ∧
      (dualSearch (sortedValues sortDesc [1 + 1 / 2 ^ 35]) 0 >>= fun s =>
        pure (decide (s.total_sum > 0), s.zero_idx - s.clip_idx - 1))
        = Except.ok (true, 0) ∧
      finalBeta (sortedValues sortDesc [1 + 1 / 2 ^ 35]) 0 = Except.error Fault.divByZero ∧
      ProjPolytope [1 + 1 / 2 ^ 35] = Except.error Fault.divByZero := by
  decide!

/-- C17 (fails on the code). For the input `[0, 1 + 2^-35]` (`r = 0`, feasibility
check fails) the final `beta` is `1` while `beta_max = (1 + 2^-35)/2 < 1`, and
the shifted boundary elements cross: `z[0] - beta < z[1] + beta`. -/
theorem beta_exceeds_beta_max :
    sortedValues sortDesc [0, 1 + 1 / 2 ^ 35] = [1 + 1 / 2 ^ 35, 0] ∧
      targetOf sortDesc [0, 1 + 1 / 2 ^ 35] = 0 ∧
      signedSumOf sortDesc [0, 1 + 1 / 2 ^ 35] = Except.ok 1 ∧
      betaMax [1 + 1 / 2 ^ 35, 0] 0 = Except.ok ((1 + 1 / 2 ^ 35) / 2) ∧
      finalBeta [1 + 1 / 2 ^ 35, 0] 0 = Except.ok 1 ∧
      ((1 + 1 / 2 ^ 35) / 2 : ℚ) < 1 ∧
      ((1 + 1 / 2 ^ 35 : ℚ) - 1 < 0 + 1) := by
  decide!

/-- C18 (fails on the code). For the input `[1, 1, 1, 1]` neither shortcut
fires, `r = 4 = length`, and the signed-sum loop reads position `r` of the
four-element array `zClip`: the access is out of bounds. -/
theorem signed_sum_reads_past_end :
    AllZero (nodesFrom 0 [1, 1, 1, 1]) = false ∧ AllOne (nodesFrom 0 [1, 1, 1, 1]) = false ∧
      (clippedValues sortDesc [1, 1, 1, 1]).length = 4 ∧
      targetOf sortDesc [1, 1, 1, 1] = 4 ∧
      rd (clippedValues sortDesc [1, 1, 1, 1]) (targetOf sortDesc [1, 1, 1, 1])
        = Except.error Fault.outOfBounds ∧
      signedSumOf sortDesc [1, 1, 1, 1] = Except.error Fault.outOfBounds := by
  decide!

/-! ## The breakpoint merge -/

theorem mergeRight_spec (z : List ℚ) (hz : z.Pairwise (fun x y => y ≤ x)) :
    ∀ (k q : Nat), q + k = z.length →
      ∃ res, mergeRight z k (q : Int) = Except.ok res ∧
        (res.map NODE.index).Perm ((List.range' q k).map Int.ofNat) ∧
        (∀ b ∈ res, ∃ j : Nat, ∃ hj : j < z.length,
          b.index = (j : Int) ∧ q ≤ j ∧ b.value = -z[j]) ∧
        res.Pairwise (fun a b => a.value ≤ b.value) := by
  intro k
  induction k with
  | zero =>
    intro q _
    exact ⟨[], rfl, by simp, by simp, List.Pairwise.nil⟩
  | succ k ih =>
    intro q hq
    have hlt : q < z.length := by omega
    obtain ⟨rest, hrest, hperm, hent, hsorted⟩ := ih (q + 1) (by omega)
    have e : ((q : Int) + 1) = ((q + 1 : Nat) : Int) := by push_cast; ring
    refine ⟨⟨(q : Int), -z[q]⟩ :: rest, ?_, ?_, ?_, ?_⟩
    · simp only [mergeRight, rd_natCast_of_lt z q hlt, bind_ok_eq, e, hrest]
      rfl
    · simp only [List.map_cons, List.range'_succ]
      exact List.Perm.cons _ hperm
    · intro b hb
      rcases List.mem_cons.mp hb with rfl | hb'
      · exact ⟨q, hlt, rfl, le_rfl, rfl⟩
      · obtain ⟨j, hj, h1, h2, h3⟩ := hent b hb'
        exact ⟨j, hj, h1, by omega, h3⟩
    · refine List.pairwise_cons.mpr ⟨?_, hsorted⟩
      intro b hb
      obtain ⟨j, hj, _, h2, h3⟩ := hent b hb
      rw [h3]
      have := sorted_get_le z hz q j (by omega) hj
      simp only [neg_le_neg_iff]
      exact this

theorem mergeLeft_spec (z : List ℚ) (hz : z.Pairwise (fun x y => y ≤ x)) :
    ∀ (l : Nat), l ≤ z.length →
      ∃ res, mergeLeft z l ((l : Int) - 1) = Except.ok res ∧
        (res.map NODE.index).Perm ((List.range l).map Int.ofNat) ∧
        (∀ b ∈ res, ∃ j : Nat, ∃ hj : j < z.length,
          b.index = (j : Int) ∧ j < l ∧ b.value = z[j] - 1) ∧
        res.Pairwise (fun a b => a.value ≤ b.value) := by
  intro l
  induction l with
  | zero =>
    intro _
    exact ⟨[], rfl, by simp, by simp, List.Pairwise.nil⟩
  | succ l ih =>
    intro hl
    have hlt : l < z.length := by omega
    obtain ⟨rest, hrest, hperm, hent, hsorted⟩ := ih (by omega)
    have e : (((l + 1 : Nat) : Int) - 1) = (l : Int) := by push_cast; ring
    refine ⟨⟨(l : Int), z[l] - 1⟩ :: rest, ?_, ?_, ?_, ?_⟩
    · simp only [mergeLeft, e, rd_natCast_of_lt z l hlt, bind_ok_eq, hrest]
      rfl
    · simp only [List.map_cons, List.range_succ, List.map_append, List.map_nil]
      exact (List.Perm.cons _ hperm).trans (List.perm_append_singleton _ _).symm
    · intro b hb
      rcases List.mem_cons.mp hb with rfl | hb'
      · exact ⟨l, hlt, rfl, by omega, rfl⟩
      · obtain ⟨j, hj, h1, h2, h3⟩ := hent b hb'
        exact ⟨j, hj, h1, by omega, h3⟩
    · refine List.pairwise_cons.mpr ⟨?_, hsorted⟩
      intro b hb
      obtain ⟨j, hj, _, h2, h3⟩ := hent b hb
      rw [h3]
      have := sorted_get_le z hz j l (by omega) hlt
      simp only [sub_le_sub_iff_right]
      exact this

/-- The merge loop, started with `l` upper-half entries left (indices
`0..l-1`) and the lower-half entries from `q` on, emits exactly those entries in
non-decreasing order of value. -/
theorem mergeLoop_spec (z : List ℚ) (hz : z.Pairwise (fun x y => y ≤ x)) :
    ∀ (fuel l q : Nat), l ≤ z.length → q ≤ z.length → fuel = l + (z.length - q) →
      ∃ res, mergeLoop z fuel ((l : Int) - 1) (q : Int) = Except.ok res ∧
        (res.map NODE.index).Perm
          ((List.range l ++ List.range' q (z.length - q)).map Int.ofNat) ∧
        (∀ b ∈ res, ∃ j : Nat, ∃ hj : j < z.length, b.index = (j : Int) ∧
          ((j < l ∧ b.value = z[j] - 1) ∨ (q ≤ j ∧ b.value = -z[j]))) ∧
        res.Pairwise (fun a b => a.value ≤ b.value) := by
  intro fuel
  induction fuel with
  | zero =>
    intro l q hl hq hf
    have hl0 : l = 0 := by omega
    have hq0 : z.length - q = 0 := by omega
    subst hl0
    rw [hq0]
    exact ⟨[], rfl, by simp, by simp, List.Pairwise.nil⟩
  | succ fuel ih =>
    intro l q hl hq hf
    by_cases hleft : ((l : Int) - 1) < 0
    · -- the upper half is exhausted
      have hl0 : l = 0 := by omega
      subst hl0
      obtain ⟨res, hres, hperm, hent, hsorted⟩ := mergeRight_spec z hz (fuel + 1) q (by omega)
      refine ⟨res, ?_, ?_, ?_, hsorted⟩
      · simp only [mergeLoop, if_pos hleft]
        exact hres
      · have : z.length - q = fuel + 1 := by omega
        rw [this]
        simpa using hperm
      · intro b hb
        obtain ⟨j, hj, h1, h2, h3⟩ := hent b hb
        exact ⟨j, hj, h1, Or.inr ⟨h2, h3⟩⟩
    · by_cases hright : (q : Int) ≥ (z.length : Int)
      · -- the lower half is exhausted
        have hqn : q = z.length := by omega
        have hfl : fuel + 1 = l := by omega
        obtain ⟨res, hres, hperm, hent, hsorted⟩ := mergeLeft_spec z hz l hl
        refine ⟨res, ?_, ?_, ?_, hsorted⟩
        · simp only [mergeLoop, if_neg hleft, if_pos hright]
          rw [hfl]
          exact hres
        · have : z.length - q = 0 := by omega
          rw [this]
          simpa using hperm
        · intro b hb
          obtain ⟨j, hj, h1, h2, h3⟩ := hent b hb
          exact ⟨j, hj, h1, Or.inl ⟨h2, h3⟩⟩
      · -- both halves have a candidate
        have hl1 : 1 ≤ l := by omega
        have hqlt : q < z.length := by omega
        have hllt : l - 1 < z.length := by omega
        have eL : ((l : Int) - 1) = ((l - 1 : Nat) : Int) := by omega
        have hrdL : rd z ((l : Int) - 1) = Except.ok z[l - 1] := by
          rw [eL]; exact rd_natCast_of_lt z (l - 1) hllt
        have hrdR : rd z (q : Int) = Except.ok z[q] := rd_natCast_of_lt z q hqlt
        by_cases hcmp : z[l - 1] - 1 > -z[q] ∨ ((l : Int) - 1) < 0
        · -- the lower-half candidate is emitted
          have hgt : z[l - 1] - 1 > -z[q] := by
            rcases hcmp with h | h
            · exact h
            · exact absurd h hleft
          obtain ⟨rest, hrest, hperm, hent, hsorted⟩ := ih l (q + 1) hl (by omega) (by omega)
          have eQ : ((q : Int) + 1) = ((q + 1 : Nat) : Int) := by push_cast; ring
          refine ⟨⟨(q : Int), -z[q]⟩ :: rest, ?_, ?_, ?_, ?_⟩
          · simp only [mergeLoop, if_neg hleft, if_neg hright, hrdL, hrdR, bind_ok_eq,
              if_pos hcmp, eQ, hrest]
            rfl
          · have e1 : z.length - q = (z.length - (q + 1)) + 1 := by omega
            rw [e1, List.range'_succ]
            simp only [List.map_cons, List.map_append] at hperm ⊢
            exact (List.Perm.cons _ hperm).trans List.perm_middle.symm
          · intro b hb
            rcases List.mem_cons.mp hb with rfl | hb'
            · exact ⟨q, hqlt, rfl, Or.inr ⟨le_rfl, rfl⟩⟩
            · obtain ⟨j, hj, h1, h2⟩ := hent b hb'
              refine ⟨j, hj, h1, ?_⟩
              rcases h2 with h2 | h2
              · exact Or.inl h2
              · exact Or.inr ⟨by omega, h2.2⟩
          · refine List.pairwise_cons.mpr ⟨?_, hsorted⟩
            intro b hb
            obtain ⟨j, hj, _, h2⟩ := hent b hb
            rcases h2 with ⟨h2, h3⟩ | ⟨h2, h3⟩
            · rw [h3]
              have := sorted_get_le z hz j (l - 1) (by omega) hllt
              show -z[q] ≤ z[j] - 1
              linarith
            · rw [h3]
              have := sorted_get_le z hz q j (by omega) hj
              show -z[q] ≤ -z[j]
              linarith
        · -- the upper-half candidate is emitted
          have hle : z[l - 1] - 1 ≤ -z[q] := by
            by_contra hcon
            exact hcmp (Or.inl (not_le.mp hcon))
          obtain ⟨rest, hrest, hperm, hent, hsorted⟩ := ih (l - 1) q (by omega) hq (by omega)
          have eL2 : ((l : Int) - 1 - 1) = (((l - 1 : Nat) : Int) - 1) := by omega
          refine ⟨⟨(l : Int) - 1, z[l - 1] - 1⟩ :: rest, ?_, ?_, ?_, ?_⟩
          · simp only [mergeLoop, if_neg hleft, if_neg hright, hrdL, hrdR, bind_ok_eq,
              if_neg hcmp, eL2, hrest]
            rfl
          · have e1 : l = (l - 1) + 1 := by omega
            have e2 : List.range l = List.range (l - 1) ++ [l - 1] := by
              conv_lhs => rw [e1]
              exact List.range_succ (l - 1)
            rw [e2]
            simp only [List.map_cons, List.map_append, List.map_nil, List.append_assoc,
              List.singleton_append] at hperm ⊢
            have e3 : ((l : Int) - 1) = Int.ofNat (l - 1) := eL
            rw [e3]
            exact (List.Perm.cons _ hperm).trans List.perm_middle.symm
          · intro b hb
            rcases List.mem_cons.mp hb with rfl | hb'
            · exact ⟨l - 1, hllt, eL, Or.inl ⟨by omega, rfl⟩⟩
            · obtain ⟨j, hj, h1, h2⟩ := hent b hb'
              refine ⟨j, hj, h1, ?_⟩
              rcases h2 with h2 | h2
              · exact Or.inl ⟨by omega, h2.2⟩
              · exact Or.inr h2
          · refine List.pairwise_cons.mpr ⟨?_, hsorted⟩
            intro b hb
            obtain ⟨j, hj, _, h2⟩ := hent b hb
            rcases h2 with ⟨h2, h3⟩ | ⟨h2, h3⟩
            · rw [h3]
              have := sorted_get_le z hz j (l - 1) (by omega) hllt
              show z[l - 1] - 1 ≤ z[j] - 1
              linarith
            · rw [h3]
              have := sorted_get_le z hz q j (by omega) hj
              show z[l - 1] - 1 ≤ -z[j]
              linarith

/-- C14. Breakpoint merge: for sorted values `z` (decreasing) and `0 ≤ r ≤ n-1`
the merge loop completes with exactly `n` entries; their indices are a
rearrangement of `0..n-1`, the entry of index `j ≤ r` has value `z[j] - 1`, the
entry of index `j > r` has value `-z[j]`, and the values are non-decreasing. -/
theorem breakpoint_merge (z : List ℚ) (hz : z.Pairwise (fun x y => y ≤ x)) (r : Int)
    (hr0 : 0 ≤ r) (hrn : r ≤ (z.length : Int) - 1) :
    ∃ zBetaRep, zBetaRepOf z r = Except.ok zBetaRep ∧ zBetaRep.length = z.length ∧
      (zBetaRep.map NODE.index).Perm ((List.range z.length).map Int.ofNat) ∧
      (∀ b ∈ zBetaRep, ∃ j : Nat, ∃ hj : j < z.length, b.index = (j : Int) ∧
        b.value = if (j : Int) ≤ r then z[j] - 1 else -z[j]) ∧
      zBetaRep.Pairwise (fun a b => a.value ≤ b.value) := by
  obtain ⟨res, hres, hperm, hent, hsorted⟩ :=
    mergeLoop_spec z hz z.length (r.toNat + 1) (r.toNat + 1) (by omega) (by omega) (by omega)
  have e1 : (((r.toNat + 1 : Nat) : Int) - 1) = r := by omega
  have e2 : ((r.toNat + 1 : Nat) : Int) = r + 1 := by omega
  rw [e1, e2] at hres
  have e3 : List.range (r.toNat + 1) ++ List.range' (r.toNat + 1) (z.length - (r.toNat + 1))
      = List.range z.length := by
    rw [List.range_eq_range', List.range_eq_range']
    have := List.range'_append 0 (r.toNat + 1) (z.length - (r.toNat + 1)) 1
    simp only [Nat.zero_add, Nat.one_mul] at this
    rw [this]
    congr 1
    omega
  rw [e3] at hperm
  refine ⟨res, hres, ?_, hperm, ?_, hsorted⟩
  · have := hperm.length_eq
    simpa using this
  · intro b hb
    obtain ⟨j, hj, h1, h2⟩ := hent b hb
    refine ⟨j, hj, h1, ?_⟩
    rcases h2 with ⟨h2, h3⟩ | ⟨h2, h3⟩
    · rw [if_pos (by omega)]; exact h3
    · rw [if_neg (by omega)]; exact h3

/-- Witness for C14: sorted values `[3/4, 1/4]` and `r = 0`. -/
theorem breakpoint_merge_witness :
    ([3 / 4, 1 / 4] : List ℚ).Pairwise (fun x y => y ≤ x) ∧ (0 : Int) ≤ 0 ∧
      (0 : Int) ≤ (([3 / 4, 1 / 4] : List ℚ).length : Int) - 1 ∧
      ∃ zBetaRep, zBetaRepOf [3 / 4, 1 / 4] 0 = Except.ok zBetaRep ∧
        zBetaRep.length = ([3 / 4, 1 / 4] : List ℚ).length ∧
        (zBetaRep.map NODE.index).Perm
          ((List.range ([3 / 4, 1 / 4] : List ℚ).length).map Int.ofNat) ∧
        (∀ b ∈ zBetaRep, ∃ j : Nat, ∃ hj : j < ([3 / 4, 1 / 4] : List ℚ).length,
          b.index = (j : Int) ∧
          b.value = if (j : Int) ≤ 0 then ([3 / 4, 1 / 4] : List ℚ)[j] - 1
            else -([3 / 4, 1 / 4] : List ℚ)[j]) ∧
        zBetaRep.Pairwise (fun a b => a.value ≤ b.value) :=
  ⟨by decide!, by decide, by decide,
    breakpoint_merge [3 / 4, 1 / 4] (by decide!) 0 (by decide) (by decide)⟩

/-! ## The dual search -/

theorem solveBeta_eq (r : Int) (s : Sweep) :
    solveBeta r s = if finalDivisor r s = 0 then Except.error Fault.divByZero
      else Except.ok (finalNumerator r s / (finalDivisor r s : ℚ)) := by
  unfold solveBeta finalNumerator finalDivisor
  by_cases h : s.total_sum > (r : ℚ)
  · simp only [if_pos h]; rfl
  · simp only [if_neg h]; rfl

theorem activeLoop_append (ci zi r : Int) : ∀ (l₁ l₂ : List ℚ) (i : Int) (acc : ℚ),
    activeLoop ci zi r i (l₁ ++ l₂) acc
      = activeLoop ci zi r (i + l₁.length) l₂ (activeLoop ci zi r i l₁ acc) := by
  intro l₁
  induction l₁ with
  | nil => intro l₂ i acc; simp [activeLoop]
  | cons x rest ih =>
    intro l₂ i acc
    have h := ih l₂ (i + 1) (activeStep ci zi r acc i x)
    have e : i + 1 + (rest.length : Int) = i + ((rest.length + 1 : Nat) : Int) := by
      push_cast; ring
    rw [e] at h
    simp only [List.cons_append, activeLoop, List.length_cons]
    exact h

theorem le_clipUnit_of_le_one {x : ℚ} (h : x ≤ 1) : x ≤ clipUnit x := by
  unfold clipUnit
  exact le_min (le_max_left _ _) h

theorem clipUnit_le_self {x : ℚ} (h : 0 ≤ x) : clipUnit x ≤ x := by
  unfold clipUnit
  rw [max_eq_left h]
  exact min_le_left _ _

/-- Over positions above `r` the loop of lines 197-203 subtracts at most the
clipped values. -/
theorem activeLoop_lower (ci zi r : Int) : ∀ (l : List ℚ) (i : Int) (acc : ℚ),
    (∀ x ∈ l, x ≤ 1) → r < i →
      acc - (l.map clipUnit).sum ≤ activeLoop ci zi r i l acc := by
  intro l
  induction l with
  | nil => intro i acc _ _; simp [activeLoop]
  | cons x rest ih =>
    intro i acc hx hi
    have h1 := ih (i + 1) (activeStep ci zi r acc i x)
      (fun y hy => hx y (List.mem_cons_of_mem _ hy)) (by omega)
    have hx1 := hx x (List.mem_cons_self _ _)
    have hc := le_clipUnit_of_le_one hx1
    have hc0 := clipUnit_nonneg x
    have hstep : acc - clipUnit x ≤ activeStep ci zi r acc i x := by
      unfold activeStep
      have hno : ¬ (i > ci ∧ i ≤ r) := by omega
      simp only [if_neg hno]
      split <;> linarith
    simp only [activeLoop, List.map_cons, List.sum_cons]
    linarith

/-- Over positions up to `r` holding nonnegative values, the loop of lines
197-203 adds at least the clipped values, less one for each position up to
`clip_idx`. -/
theorem activeLoop_upper (ci zi r : Int) : ∀ (l : List ℚ) (i : Nat) (acc : ℚ),
    (∀ x ∈ l, 0 ≤ x) → ((i + l.length : Nat) : Int) ≤ r + 1 →
      acc + (l.map clipUnit).sum - ((max 0 (min (ci + 1 - i) l.length) : Int) : ℚ)
        ≤ activeLoop ci zi r (i : Int) l acc := by
  intro l
  induction l with
  | nil => intro i acc _ _; simp [activeLoop]
  | cons x rest ih =>
    intro i acc hx hi
    simp only [List.length_cons] at hi
    have e : ((i : Int) + 1) = ((i + 1 : Nat) : Int) := by push_cast; ring
    have h1 := ih (i + 1) (activeStep ci zi r acc i x)
      (fun y hy => hx y (List.mem_cons_of_mem _ hy)) (by omega)
    have hx0 := hx x (List.mem_cons_self _ _)
    have hc := clipUnit_le_self hx0
    have hc1 := clipUnit_le_one x
    rw [← e] at h1
    simp only [activeLoop, List.map_cons, List.sum_cons, List.length_cons]
    have hno : ¬ ((i : Int) > r ∧ (i : Int) < zi) := by omega
    by_cases hci : (i : Int) > ci
    · have hstep : activeStep ci zi r acc i x = acc + x := by
        unfold activeStep
        have hyes : (i : Int) > ci ∧ (i : Int) ≤ r := ⟨hci, by omega⟩
        simp only [if_pos hyes, if_neg hno]
      have hM1 : max 0 (min (ci + 1 - ((i : Int) + 1)) (rest.length : Int)) = 0 := by omega
      have hM2 : max 0 (min (ci + 1 - (i : Int)) ((rest.length + 1 : Nat) : Int)) = 0 := by omega
      rw [hstep, hM1] at h1
      rw [hstep, hM2]
      push_cast at h1 ⊢
      linarith
    · have hstep : activeStep ci zi r acc i x = acc := by
        unfold activeStep
        have hno2 : ¬ ((i : Int) > ci ∧ (i : Int) ≤ r) := by omega
        simp only [if_neg hno2, if_neg hno]
      have hM : max 0 (min (ci + 1 - (i : Int)) ((rest.length + 1 : Nat) : Int))
          = max 0 (min (ci + 1 - ((i : Int) + 1)) (rest.length : Int)) + 1 := by omega
      rw [hstep] at h1
      rw [hstep, hM]
      push_cast at h1 ⊢
      linarith

/-- One iteration of the sweep loop, in terms of its three updates. -/
theorem sweepLoop_succ (z : List ℚ) (zBetaRep : List NODE) (r idx_end : Int) (fuel : Nat)
    (i : Int) (s : Sweep) :
    sweepLoop z zBetaRep r idx_end (fuel + 1) i s =
      if i ≤ idx_end then
        rd zBetaRep i >>= fun b =>
        rd z b.index >>= fun x =>
        if i < (z.length : Int) - 1 then
          rd zBetaRep (i + 1) >>= fun nxt =>
          if b.value ≠ nxt.value then
            if totalAt (applyBreakpoint r b x (savePrevious s)) < r then
              pure (withTotal (applyBreakpoint r b x (savePrevious s)))
            else sweepLoop z zBetaRep r idx_end fuel (i + 1)
              (withTotal (applyBreakpoint r b x (savePrevious s)))
          else sweepLoop z zBetaRep r idx_end fuel (i + 1)
            (applyBreakpoint r b x (savePrevious s))
        else if i = (z.length : Int) - 1 then
          sweepLoop z zBetaRep r idx_end fuel (i + 1)
            (withTotal (applyBreakpoint r b x (savePrevious s)))
        else sweepLoop z zBetaRep r idx_end fuel (i + 1)
          (applyBreakpoint r b x (savePrevious s))
      else pure s := by
  rw [sweepLoop]
  by_cases hi : i ≤ idx_end
  · simp only [if_pos hi]
    cases rd zBetaRep i with
    | error e => rfl
    | ok b =>
      simp only [bind_ok_eq]
      cases rd z b.index with
      | error e => rfl
      | ok x =>
        simp only [bind_ok_eq]
        by_cases hidx : b.index ≤ r
        · simp only [applyBreakpoint, if_pos hidx, totalAt, withTotal, savePrevious]
        · simp only [applyBreakpoint, if_neg hidx, totalAt, withTotal, savePrevious]
  · simp only [if_neg hi]

theorem SweepInv_savePrevious (r : Int) (N : ℚ) (s : Sweep) (h : SweepInv r N s) :
    SweepInv r N (savePrevious s) := by
  obtain ⟨h1, h2, h3, h4⟩ := h
  unfold savePrevious
  split
  · exact ⟨h1, h1, h3, h3⟩
  · exact ⟨h1, h2, h3, h4⟩

theorem SweepInv_withTotal (r : Int) (N : ℚ) (s : Sweep) (h : SweepInv r N s) :
    SweepInv r N (withTotal s) := h

theorem SweepInv_applyBreakpoint (r : Int) (N : ℚ) (s : Sweep) (b : NODE) (x : ℚ)
    (h : SweepInv r N s) (hb : 0 ≤ b.value)
    (hx : b.value = if b.index ≤ r then x - 1 else -x) :
    SweepInv r N (applyBreakpoint r b x s) := by
  obtain ⟨h1, h2, h3, h4⟩ := h
  unfold applyBreakpoint
  by_cases hidx : b.index ≤ r
  · rw [if_pos hidx] at hx ⊢
    refine ⟨?_, h2, ?_, h4⟩
    · show N ≤ ((s.clip_idx - 1 + 1 : Int) : ℚ) + (s.active_sum + x) - r
      push_cast at h1 ⊢
      linarith
    · show 0 ≤ s.zero_idx - (s.clip_idx - 1) - 1
      omega
  · rw [if_neg hidx] at hx ⊢
    refine ⟨?_, h2, ?_, h4⟩
    · show N ≤ ((s.clip_idx + 1 : Int) : ℚ) + (s.active_sum - x) - r
      push_cast at h1 ⊢
      linarith
    · show 0 ≤ s.zero_idx + 1 - s.clip_idx - 1
      omega

/-- The sweep loop runs without a fault and keeps `SweepInv`, when it is
started at or after `idx_start` and `zBetaRep` has the entries the merge
writes. -/
theorem sweepLoop_inv (z : List ℚ) (zBetaRep : List NODE) (r idx_end : Int) (N : ℚ)
    (hlen : zBetaRep.length = z.length) (hend : idx_end ≤ (z.length : Int) - 1)
    (hent : ∀ (i : Nat) (hi : i < zBetaRep.length), idxStart zBetaRep ≤ (i : Int) →
      0 ≤ zBetaRep[i].value ∧ ∃ k : Nat, ∃ hk : k < z.length, zBetaRep[i].index = (k : Int) ∧
        zBetaRep[i].value = if zBetaRep[i].index ≤ r then z[k] - 1 else -z[k]) :
    ∀ (fuel i : Nat) (s : Sweep), idxStart zBetaRep ≤ (i : Int) → SweepInv r N s →
      ∃ s', sweepLoop z zBetaRep r idx_end fuel (i : Int) s = Except.ok s' ∧ SweepInv r N s' := by
  intro fuel
  induction fuel with
  | zero => intro i s _ hs; exact ⟨s, rfl, hs⟩
  | succ fuel ih =>
    intro i s hi0 hs
    rw [sweepLoop_succ]
    by_cases hi : (i : Int) ≤ idx_end
    · have hilt : i < zBetaRep.length := by omega
      obtain ⟨hb0, k, hk, hidx, hval⟩ := hent i hilt hi0
      have hrdz : rd z zBetaRep[i].index = Except.ok z[k] := by
        rw [hidx]; exact rd_natCast_of_lt z k hk
      have hs2 : SweepInv r N (applyBreakpoint r zBetaRep[i] z[k] (savePrevious s)) :=
        SweepInv_applyBreakpoint r N _ _ _ (SweepInv_savePrevious r N s hs) hb0 hval
      have e : ((i : Int) + 1) = ((i + 1 : Nat) : Int) := by push_cast; ring
      simp only [if_pos hi, rd_natCast_of_lt zBetaRep i hilt, bind_ok_eq, hrdz]
      by_cases hlast : (i : Int) < (z.length : Int) - 1
      · have hnext : i + 1 < zBetaRep.length := by omega
        simp only [if_pos hlast, e, rd_natCast_of_lt zBetaRep (i + 1) hnext, bind_ok_eq]
        by_cases hne : zBetaRep[i].value ≠ zBetaRep[i + 1].value
        · simp only [if_pos hne]
          by_cases hbrk : totalAt (applyBreakpoint r zBetaRep[i] z[k] (savePrevious s)) < (r : ℚ)
          · simp only [if_pos hbrk]
            exact ⟨_, rfl, SweepInv_withTotal r N _ hs2⟩
          · simp only [if_neg hbrk]
            exact ih (i + 1) _ (by omega) (SweepInv_withTotal r N _ hs2)
        · simp only [if_neg hne]
          exact ih (i + 1) _ (by omega) hs2
      · simp only [if_neg hlast, e]
        by_cases heq : (i : Int) = (z.length : Int) - 1
        · simp only [if_pos heq]
          exact ih (i + 1) _ (by omega) (SweepInv_withTotal r N _ hs2)
        · simp only [if_neg heq]
          exact ih (i + 1) _ (by omega) hs2
    · simp only [if_neg hi]
      exact ⟨s, rfl, hs⟩

theorem sum_clip_le_of_mem_nonpos (l : List ℚ) (x : ℚ) (hx : x ∈ l) (h0 : x ≤ 0) :
    (l.map clipUnit).sum ≤ (l.length : ℚ) - 1 := by
  have hp := (List.perm_cons_erase hx).map clipUnit
  rw [hp.sum_eq, List.map_cons, List.sum_cons]
  have h1 : clipUnit x = 0 := by
    unfold clipUnit
    rw [max_eq_right h0, min_eq_left zero_le_one]
  have h2 := sum_clip_le_length (l.erase x)
  have h3 : ((l.erase x).length : ℚ) = (l.length : ℚ) - 1 := by
    rw [List.length_erase_of_mem hx]
    have : 1 ≤ l.length := List.length_pos_of_mem hx
    push_cast [Nat.pred_eq_sub_one, Nat.cast_sub this]
    ring
  rw [h1, ← h3]
  linarith

/-- When the signed sum exceeds `r`, the sorted values at positions `0..r` are
positive. -/
theorem upper_positive (z : List ℚ) (m : Nat) (hm : m + 1 ≤ z.length)
    (hgt : (m : ℚ) < ((z.map clipUnit).take (m + 1)).sum - ((z.map clipUnit).drop (m + 1)).sum) :
    ∀ x ∈ z.take (m + 1), 0 < x := by
  intro x hx
  by_contra hcon
  have h1 := sum_clip_le_of_mem_nonpos (z.take (m + 1)) x hx (not_lt.mp hcon)
  have h2 : 0 ≤ ((z.map clipUnit).drop (m + 1)).sum := by
    rw [← List.map_drop]; exact sum_clip_nonneg _
  rw [List.map_take] at h1
  have h3 : ((z.take (m + 1)).length : ℚ) = (m : ℚ) + 1 := by
    rw [List.length_take, Nat.min_eq_left hm]
    push_cast
    ring
  rw [h3] at h1
  linarith

/-- The sorted values at positions after `r` are at most one. -/
theorem lower_le_one (z : List ℚ) (hz : z.Pairwise (fun x y => y ≤ x)) (m : Nat)
    (hK : clipIdx0 z ≤ (m : Int)) : ∀ x ∈ z.drop (m + 1), x ≤ 1 := by
  intro x hx
  by_contra hcon
  obtain ⟨i, hi, rfl⟩ := List.getElem_of_mem hx
  rw [List.length_drop] at hi
  rw [List.getElem_drop] at hcon
  have hj : m + 1 + i < z.length := by omega
  have hk : m + 1 + i + 1 ≤ z.countP (fun x => decide (x > 1)) := by
    apply countP_ge_of_prefix _ _ (m + 1 + i + 1) (by omega)
    intro t ht htj
    have := sorted_get_le z hz t (m + 1 + i) (by omega) hj
    simp only [decide_eq_true_eq, gt_iff_lt]
    have h1 : 1 < z[m + 1 + i] := not_le.mp hcon
    linarith
  unfold clipIdx0 at hK
  omega

/-- When the feasibility check fails, the numerator of the final solve is
positive on entry to the sweep: `clip_idx + 1 + active_sum` is at least the
signed sum, which exceeds `r`. -/
theorem start_numerator_pos (z : List ℚ) (hz : z.Pairwise (fun x y => y ≤ x)) (r : Int)
    (hr0 : 0 ≤ r) (hK : clipIdx0 z ≤ r) (S : ℚ)
    (hS : sumClip (z.map clipUnit) r = Except.ok S) (hgt : (r : ℚ) < S) :
    0 < ((clipIdx0 z + 1 : Int) : ℚ) + activeSum0 z (clipIdx0 z) (zeroIdx0 z) r - r := by
  obtain ⟨hm, hSeq⟩ := sumClip_ok _ r S hr0 hS
  rw [List.length_map] at hm
  have hrm : ((r.toNat : Nat) : Int) = r := Int.toNat_of_nonneg hr0
  have hrq : ((r.toNat : Nat) : ℚ) = (r : ℚ) := by exact_mod_cast hrm
  have hgt' : ((r.toNat : Nat) : ℚ)
      < ((z.map clipUnit).take (r.toNat + 1)).sum - ((z.map clipUnit).drop (r.toNat + 1)).sum := by
    rw [hrq, ← hSeq]; exact hgt
  have hpos := upper_positive z r.toNat hm hgt'
  have hle1 := lower_le_one z hz r.toNat (by omega)
  have hsplit : activeSum0 z (clipIdx0 z) (zeroIdx0 z) r
      = activeLoop (clipIdx0 z) (zeroIdx0 z) r ((0 : Nat) + ((z.take (r.toNat + 1)).length : Int))
          (z.drop (r.toNat + 1))
          (activeLoop (clipIdx0 z) (zeroIdx0 z) r ((0 : Nat) : Int) (z.take (r.toNat + 1)) 0) := by
    unfold activeSum0
    have := activeLoop_append (clipIdx0 z) (zeroIdx0 z) r (z.take (r.toNat + 1))
      (z.drop (r.toNat + 1)) ((0 : Nat) : Int) 0
    rw [List.take_append_drop] at this
    exact this
  have hlenT : (z.take (r.toNat + 1)).length = r.toNat + 1 := by
    rw [List.length_take, Nat.min_eq_left hm]
  have hup := activeLoop_upper (clipIdx0 z) (zeroIdx0 z) r (z.take (r.toNat + 1)) 0 0
    (fun x hx => le_of_lt (hpos x hx)) (by rw [hlenT]; omega)
  have hlow := activeLoop_lower (clipIdx0 z) (zeroIdx0 z) r (z.drop (r.toNat + 1))
    (((0 : Nat) : Int) + ((z.take (r.toNat + 1)).length : Int))
    (activeLoop (clipIdx0 z) (zeroIdx0 z) r ((0 : Nat) : Int) (z.take (r.toNat + 1)) 0)
    hle1 (by rw [hlenT]; omega)
  have hK0 : 0 ≤ clipIdx0 z + 1 := by unfold clipIdx0; omega
  have hM : max 0 (min (clipIdx0 z + 1 - ((0 : Nat) : Int)) ((z.take (r.toNat + 1)).length : Int))
      = clipIdx0 z + 1 := by
    rw [hlenT]; omega
  rw [hM] at hup
  rw [hsplit]
  rw [List.map_take] at hup
  rw [List.map_drop] at hlow
  rw [hSeq] at hgt
  push_cast at hup hlow hgt ⊢
  linarith

theorem countP_ge_of_prefix_nodes (l : List NODE) (p : NODE → Bool) (k : Nat)
    (hk : k ≤ l.length)
    (h : ∀ (i : Nat) (hi : i < l.length), i < k → p l[i] = true) : k ≤ l.countP p := by
  have h1 : (l.take k).countP p = (l.take k).length := by
    rw [List.countP_eq_length]
    intro a ha
    obtain ⟨i, hi, rfl⟩ := List.getElem_of_mem ha
    rw [List.getElem_take]
    have hi' : i < k := by
      rw [List.length_take] at hi
      omega
    exact h i (by omega) hi'
  have h2 : (l.take k).countP p ≤ l.countP p := (List.take_sublist _ _).countP_le _
  rw [h1, List.length_take] at h2
  omega

/-- In an array sorted by non-decreasing value, the entries from position
`countP (· < t)` on have value at least `t`. -/
theorem sorted_prefix_ge (l : List NODE) (hs : l.Pairwise (fun a b => a.value ≤ b.value))
    (t : ℚ) (i : Nat) (hi : i < l.length)
    (hc : l.countP (fun b => decide (b.value < t)) ≤ i) : t ≤ l[i].value := by
  by_contra hcon
  have hlt : l[i].value < t := not_le.mp hcon
  have : i + 1 ≤ l.countP (fun b => decide (b.value < t)) := by
    apply countP_ge_of_prefix_nodes l _ (i + 1) (by omega)
    intro j hj hji
    simp only [decide_eq_true_eq]
    rcases Nat.eq_or_lt_of_le (Nat.le_of_lt_succ hji) with h | h
    · subst h; exact hlt
    · exact lt_of_le_of_lt ((List.pairwise_iff_getElem.mp hs) j i hj hi h) hlt
  omega

theorem zBetaRepOf_entries (z : List ℚ) (hz : z.Pairwise (fun x y => y ≤ x)) (r : Int)
    (hr0 : 0 ≤ r) (hrn : r.toNat + 1 ≤ z.length) :
    ∃ zBetaRep, zBetaRepOf z r = Except.ok zBetaRep ∧ zBetaRep.length = z.length ∧
      (∀ b ∈ zBetaRep, ∃ k : Nat, ∃ hk : k < z.length, b.index = (k : Int) ∧
        b.value = if b.index ≤ r then z[k] - 1 else -z[k]) ∧
      zBetaRep.Pairwise (fun a b => a.value ≤ b.value) := by
  obtain ⟨res, hres, hperm, hent, hsorted⟩ :=
    mergeLoop_spec z hz z.length (r.toNat + 1) (r.toNat + 1) hrn hrn (by omega)
  have e1 : (((r.toNat + 1 : Nat) : Int) - 1) = r := by omega
  have e2 : ((r.toNat + 1 : Nat) : Int) = r + 1 := by omega
  rw [e1, e2] at hres
  refine ⟨res, hres, ?_, ?_, hsorted⟩
  · have := hperm.length_eq
    simp only [List.length_map, List.length_append, List.length_range, List.length_range'] at this
    omega
  · intro b hb
    obtain ⟨j, hj, h1, h2⟩ := hent b hb
    refine ⟨j, hj, h1, ?_⟩
    rcases h2 with ⟨h2, h3⟩ | ⟨h2, h3⟩
    · rw [if_pos (by omega)]; exact h3
    · rw [if_neg (by omega)]; exact h3

theorem betaMax_ok (z : List ℚ) (r : Int) (hr0 : 0 ≤ r) (hrn : r.toNat + 1 ≤ z.length) :
    ∃ bm, betaMax z r = Except.ok bm := by
  obtain ⟨m, rfl⟩ := Int.eq_ofNat_of_zero_le hr0
  simp only [Int.toNat_ofNat] at hrn
  have e2 : (m : Int) + 1 = ((m + 1 : Nat) : Int) := by push_cast; ring
  unfold betaMax
  by_cases h : (m : Int) + 2 ≤ (z.length : Int)
  · rw [if_pos h, e2, rd_natCast_of_lt z m (by omega),
      rd_natCast_of_lt z (m + 1) (by omega)]
    exact ⟨_, rfl⟩
  · rw [if_neg h, rd_natCast_of_lt z m (by omega)]
    exact ⟨_, rfl⟩

/-- When the feasibility check fails, the dual search runs without a fault, and
in its final state both numerators of the final solve are positive and both
widths are nonnegative. -/
theorem dualSearch_inv (z : List ℚ) (hz : z.Pairwise (fun x y => y ≤ x)) (S : ℚ)
    (hS : sumClip (z.map clipUnit) (parityTarget (z.map clipUnit).sum) = Except.ok S)
    (hgt : ((parityTarget (z.map clipUnit).sum : Int) : ℚ) < S) :
    ∃ s N, dualSearch z (parityTarget (z.map clipUnit).sum) = Except.ok s ∧ 0 < N ∧
      SweepInv (parityTarget (z.map clipUnit).sum) N s := by
  have hr0 := parityTarget_nonneg _ (sum_clip_nonneg z)
  have hK := clipIdx0_le z
  have hZ := zeroIdx0_ge z _ hr0 S hS hgt
  obtain ⟨hm, _⟩ := sumClip_ok _ _ S hr0 hS
  rw [List.length_map] at hm
  have hN := start_numerator_pos z hz _ hr0 hK S hS hgt
  obtain ⟨bm, hbm⟩ := betaMax_ok z _ hr0 hm
  obtain ⟨zB, hzB, hlen, hent, hsorted⟩ := zBetaRepOf_entries z hz _ hr0 hm
  have hstart : SweepInv (parityTarget (z.map clipUnit).sum)
      (((clipIdx0 z + 1 : Int) : ℚ) + activeSum0 z (clipIdx0 z) (zeroIdx0 z)
        (parityTarget (z.map clipUnit).sum) - (parityTarget (z.map clipUnit).sum : Int))
      (sweepStart z (parityTarget (z.map clipUnit).sum)) := by
    refine ⟨le_rfl, le_rfl, ?_, ?_⟩
    · show 0 ≤ zeroIdx0 z - clipIdx0 z - 1
      omega
    · show 0 ≤ zeroIdx0 z - clipIdx0 z - 1
      omega
  have hloop := sweepLoop_inv z zB (parityTarget (z.map clipUnit).sum) (idxEnd zB bm) _ hlen
    (by
      have := List.countP_le_length (fun b : NODE => decide (b.value < bm)) (l := zB)
      unfold idxEnd
      omega)
    (fun i hi hstart => by
      have h0 : zero_tol_offset ≤ zB[i].value := by
        have := sorted_prefix_ge zB hsorted (0 + zero_tol_offset) i hi (by
          unfold idxStart at hstart
          omega)
        simpa using this
      have hpos : (0 : ℚ) ≤ zero_tol_offset := by unfold zero_tol_offset; norm_num
      exact ⟨le_trans hpos h0, hent _ (List.getElem_mem hi)⟩)
    ((idxEnd zB bm) - (idxStart zB) + 1).toNat
    (zB.countP (fun b => decide (b.value < 0 + zero_tol_offset)))
    (sweepStart z (parityTarget (z.map clipUnit).sum)) (by unfold idxStart; omega) hstart
  obtain ⟨s', hs', hinv⟩ := hloop
  refine ⟨s', _, ?_, hN, hinv⟩
  unfold dualSearch
  rw [hbm, bind_ok_eq, hzB, bind_ok_eq]
  exact hs'

/-- C16 (amended). Non-negative dual variable in exact arithmetic: when the
feasibility check fails, the dual search completes, the numerator of the final
solve is positive and its divisor is nonnegative, so the final `beta`, the
quotient of the two whenever the divisor is not zero, is positive: values of the
upper half are only shifted down and values of the lower half only up. -/
theorem dual_variable_nonneg (sort : List NODE → List NODE) (hs : SortContract sort)
    (input : List ℚ) (S : ℚ) (hS : signedSumOf sort input = Except.ok S)
    (hgt : (targetOf sort input : ℚ) < S) :
    ∃ s, dualSearch (sortedValues sort input) (targetOf sort input) = Except.ok s ∧
      0 < finalNumerator (targetOf sort input) s ∧
      0 ≤ finalDivisor (targetOf sort input) s ∧
      finalBeta (sortedValues sort input) (targetOf sort input)
        = (if finalDivisor (targetOf sort input) s = 0 then Except.error Fault.divByZero
          else Except.ok (finalNumerator (targetOf sort input) s
            / (finalDivisor (targetOf sort input) s : ℚ))) ∧
      ∀ beta, finalBeta (sortedValues sort input) (targetOf sort input) = Except.ok beta →
        0 < beta ∧ ∀ x, clipUnit (x - beta) ≤ clipUnit x ∧ clipUnit x ≤ clipUnit (x + beta) := by
  have ht : targetOf sort input = parityTarget ((sortedValues sort input).map clipUnit).sum := by
    simp only [targetOf, constituentOf, zClipOf_map_value, sortedValues]
  rw [signedSumOf_eq] at hS
  rw [ht] at hgt ⊢
  obtain ⟨s, N, hs', hN, h1, h2, h3, h4⟩ :=
    dualSearch_inv (sortedValues sort input) (sorted_values sort hs _) S hS hgt
  have hnum : 0 < finalNumerator (parityTarget ((sortedValues sort input).map clipUnit).sum) s := by
    unfold finalNumerator
    split
    · push_cast at h1 ⊢; linarith
    · push_cast at h2 ⊢; linarith
  have hdiv : 0 ≤ finalDivisor (parityTarget ((sortedValues sort input).map clipUnit).sum) s := by
    unfold finalDivisor
    split
    · exact h3
    · exact h4
  have hfin : finalBeta (sortedValues sort input)
      (parityTarget ((sortedValues sort input).map clipUnit).sum)
        = solveBeta (parityTarget ((sortedValues sort input).map clipUnit).sum) s := by
    unfold finalBeta
    rw [hs', bind_ok_eq]
  refine ⟨s, hs', hnum, hdiv, ?_, ?_⟩
  · rw [hfin, solveBeta_eq]
  · intro beta hbeta
    rw [hfin, solveBeta_eq] at hbeta
    by_cases hd : finalDivisor (parityTarget ((sortedValues sort input).map clipUnit).sum) s = 0
    · rw [if_pos hd] at hbeta
      cases hbeta
    · rw [if_neg hd] at hbeta
      injection hbeta with hbeta
      have hdpos : (0 : ℚ)
          < (finalDivisor (parityTarget ((sortedValues sort input).map clipUnit).sum) s : ℚ) := by
        have : 0 < finalDivisor (parityTarget ((sortedValues sort input).map clipUnit).sum) s := by
          omega
        exact_mod_cast this
      have hb : 0 < beta := by
        rw [← hbeta]
        exact div_pos hnum hdpos
      refine ⟨hb, fun x => ⟨clipUnit_mono (by linarith), clipUnit_mono (by linarith)⟩⟩

/-- Witness for C16 (amended): the input `[3/4, 1/4]`, with `r = 0` and signed sum `1/2`. -/
theorem dual_variable_nonneg_witness :
    SortContract sortDesc ∧ signedSumOf sortDesc [3 / 4, 1 / 4] = Except.ok (1 / 2) ∧
      (targetOf sortDesc [3 / 4, 1 / 4] : ℚ) < 1 / 2 ∧
      ∃ s, dualSearch (sortedValues sortDesc [3 / 4, 1 / 4]) (targetOf sortDesc [3 / 4, 1 / 4])
          = Except.ok s ∧
        0 < finalNumerator (targetOf sortDesc [3 / 4, 1 / 4]) s ∧
        0 ≤ finalDivisor (targetOf sortDesc [3 / 4, 1 / 4]) s ∧
        finalBeta (sortedValues sortDesc [3 / 4, 1 / 4]) (targetOf sortDesc [3 / 4, 1 / 4])
          = (if finalDivisor (targetOf sortDesc [3 / 4, 1 / 4]) s = 0
            then Except.error Fault.divByZero
            else Except.ok (finalNumerator (targetOf sortDesc [3 / 4, 1 / 4]) s
              / (finalDivisor (targetOf sortDesc [3 / 4, 1 / 4]) s : ℚ))) ∧
        ∀ beta, finalBeta (sortedValues sortDesc [3 / 4, 1 / 4])
            (targetOf sortDesc [3 / 4, 1 / 4]) = Except.ok beta →
          0 < beta ∧
            ∀ x, clipUnit (x - beta) ≤ clipUnit x ∧ clipUnit x ≤ clipUnit (x + beta) :=
  ⟨sortDesc_contract, by decide!, by decide!,
    dual_variable_nonneg sortDesc sortDesc_contract [3 / 4, 1 / 4] (1 / 2)
      (by decide!) (by decide!)⟩

/-- C16 (counterexample). In double precision, for the input
`[0.3, 0.4, 0.7, 1.0, 1.1]` neither shortcut fires, `r = 2`, the rounded signed
sum is `2 + 2^-51 > 2`, so the feasibility check fails, and the final `beta` is
`-2^-54`, which is negative. The exact signed sum of the same five values is
`2 - 2^-54 ≤ 2`. -/
theorem dual_variable_negative_in_doubles :
    AllZero (nodesFrom 0 [roundD (3 / 10), roundD (4 / 10), roundD (7 / 10), 1, roundD (11 / 10)])
        = false ∧
      AllOne (nodesFrom 0 [roundD (3 / 10), roundD (4 / 10), roundD (7 / 10), 1, roundD (11 / 10)])
        = false ∧
      sortedValues sortDesc [roundD (3 / 10), roundD (4 / 10), roundD (7 / 10), 1, roundD (11 / 10)]
        = [roundD (11 / 10), 1, roundD (7 / 10), roundD (4 / 10), roundD (3 / 10)] ∧
      targetOfD sortDesc [roundD (3 / 10), roundD (4 / 10), roundD (7 / 10), 1, roundD (11 / 10)]
        = 2 ∧
      signedSumOfD sortDesc [roundD (3 / 10), roundD (4 / 10), roundD (7 / 10), 1, roundD (11 / 10)]
        = Except.ok (2 + 1 / 2 ^ 51) ∧
      ((2 : Int) : ℚ) < 2 + 1 / 2 ^ 51 ∧
      finalBetaD [roundD (11 / 10), 1, roundD (7 / 10), roundD (4 / 10), roundD (3 / 10)] 2
        = Except.ok (-(1 / 2 ^ 54)) ∧
      ¬ (0 : ℚ) ≤ -(1 / 2 ^ 54) ∧
      signedSumOf sortDesc [roundD (3 / 10), roundD (4 / 10), roundD (7 / 10), 1, roundD (11 / 10)]
        = Except.ok (2 - 1 / 2 ^ 54) := by
  decide!

end ADMM
